import Mathlib

/-!
Verification development for the secret push/pull reconciliation and
versioning engine of the `infisical-pratik` repository
(`backend/src/helpers/secret.ts` logic embedded in
`backend/src/controllers/v2/workspaceController.ts`).

The mutable Mongo collections `Secret`, `SecretVersion` and
`SecretSnapshot` are embedded as explicit lists inside a `Store` record;
each database operation of the source (`find`, `deleteMany`,
`updateMany`, `bulkWrite` of `updateOne` operations, `insertMany`,
`findOne().sort({version:-1})`, `save`) becomes a pure function from
`Store` to `Store`.  Mongo object ids are modelled as sequential fresh
naturals handed out by the `nextId` counter (the only property of
ObjectIds the code relies on is uniqueness/freshness).  JavaScript
objects built by `reduce` with computed keys (`oldSecretsObj`,
`newSecretsObj`) are modelled by a last-binding-wins lookup
(`objLookup`), mirroring that a later assignment to the same key
overwrites the earlier one.
-/

namespace Infisical

/-- The `type` field of a secret: the string constants `SECRET_SHARED`
("shared") and `SECRET_PERSONAL` ("personal") of the source, embedded
as a closed enumeration (the code only ever compares these strings for
equality). -/
inductive SecretType
  | shared
  | personal
deriving DecidableEq, Repr

/-- An incoming batch entry: the `PushSecret` interface of the source
(ciphertext, IV, auth tag and content hash for key and value, plus the
visibility type). -/
structure PushSecret where
  ciphertextKey : String
  ivKey : String
  tagKey : String
  hashKey : String
  ciphertextValue : String
  ivValue : String
  tagValue : String
  hashValue : String
  type : SecretType
deriving DecidableEq, Repr

/-- A stored `Secret` document.  `id` is the Mongo `_id`, `user` the
owner field present on personal secrets. -/
structure Secret where
  id : Nat
  workspace : String
  environment : String
  type : SecretType
  user : Option String
  secretKeyCiphertext : String
  secretKeyIV : String
  secretKeyTag : String
  secretKeyHash : String
  secretValueCiphertext : String
  secretValueIV : String
  secretValueTag : String
  secretValueHash : String
  version : Nat
deriving DecidableEq, Repr

/-- A stored `SecretVersion` document: `secret` references the owning
`Secret`'s `_id`. -/
structure SecretVersion where
  secret : Nat
  version : Nat
  isDeleted : Bool
  secretKeyCiphertext : String
  secretKeyIV : String
  secretKeyTag : String
  secretKeyHash : String
  secretValueCiphertext : String
  secretValueIV : String
  secretValueTag : String
  secretValueHash : String
deriving DecidableEq, Repr

/-- A stored `SecretSnapshot` document: a denormalized copy of every
`Secret` of the workspace at capture time. -/
structure SecretSnapshot where
  workspace : String
  version : Nat
  secrets : List Secret
deriving DecidableEq, Repr

/-- The three Mongo collections plus the fresh-id counter. -/
structure Store where
  secrets : List Secret
  secretVersions : List SecretVersion
  secretSnapshots : List SecretSnapshot
  nextId : Nat
deriving DecidableEq, Repr

/-- A store with empty collections. -/
def emptyStore : Store :=
  { secrets := [], secretVersions := [], secretSnapshots := [], nextId := 0 }

/-- The `Secret.find` query for shared secrets of a
(workspace, environment) scope. -/
def sharedPredB (workspaceId environment : String) (s : Secret) : Bool :=
  s.workspace == workspaceId && s.environment == environment &&
    s.type == SecretType.shared

/-- The `Secret.find` query for the caller's personal secrets of a
(workspace, environment) scope. -/
def personalPredB (userId workspaceId environment : String) (s : Secret) : Bool :=
  s.workspace == workspaceId && s.environment == environment &&
    s.type == SecretType.personal && s.user == some userId

/-- `pullSecrets` of the source: `Secret.find` for the shared secrets of
the (workspace, environment) scope, `Secret.find` for the personal
secrets of the caller in that scope, then
`personalSecrets.concat(sharedSecrets)` — personal entries first. -/
def pullSecrets (userId workspaceId environment : String) (st : Store) : List Secret :=
  st.secrets.filter (personalPredB userId workspaceId environment) ++
    st.secrets.filter (sharedPredB workspaceId environment)

/-- Lookup in a JavaScript object built by
`list.reduce((acc, s) => ({...acc, [keyOf s]: s}), {})`: the binding of
the LAST list element carrying the key wins. -/
def objLookup (keyOf : Secret → String) : List Secret → String → Option Secret
  | [], _ => none
  | s :: rest, h =>
    match objLookup keyOf rest h with
    | some r => some r
    | none => if keyOf s == h then some s else none

/-- The `oldSecretsObj` lookup of `pushSecrets`, keyed by
`secretKeyHash`. -/
def oldObj (scope : List Secret) (h : String) : Option Secret :=
  objLookup (fun s => s.secretKeyHash) scope h

/-- The records classified for deletion: stored scope secrets whose
`secretKeyHash` is not a key of `newSecretsObj`, i.e. no incoming entry
carries that key-hash. -/
def toDeleteRecords (scope : List Secret) (batch : List PushSecret) : List Secret :=
  scope.filter fun s => !(batch.any fun e => e.hashKey == s.secretKeyHash)

/-- The `toDelete` id list of `pushSecrets` (`.map(s => s._id)`). -/
def toDeleteIds (scope : List Secret) (batch : List PushSecret) : List Nat :=
  (toDeleteRecords scope batch).map fun s => s.id

/-- The `toUpdate` classification of `pushSecrets`: incoming entries
whose key-hash occurs in `oldSecretsObj` and whose value-hash or type
differs from the stored record found there. -/
def toUpdate (scope : List Secret) (batch : List PushSecret) : List PushSecret :=
  batch.filter fun e =>
    match oldObj scope e.hashKey with
    | some old => e.hashValue != old.secretValueHash || e.type != old.type
    | none => false

/-- The `toAdd` classification of `pushSecrets`: incoming entries whose
key-hash does not occur in `oldSecretsObj`. -/
def toAdd (scope : List Secret) (batch : List PushSecret) : List PushSecret :=
  batch.filter fun e => (oldObj scope e.hashKey).isNone

/-- Step 1 of `pushSecrets`: `Secret.deleteMany({_id: {$in: toDelete}})`
followed by `SecretVersion.updateMany({secret: {$in: toDelete}},
{isDeleted: true})`, both guarded by `toDelete.length > 0`. -/
def applyDelete (dels : List Nat) (st : Store) : Store :=
  if dels.isEmpty then st
  else
    { st with
      secrets := st.secrets.filter fun s => !(dels.contains s.id)
      secretVersions := st.secretVersions.map fun r =>
        if dels.contains r.secret then { r with isDeleted := true } else r }

/-- The `updateOne` write of the bulk operation: Mongo updates the first
document matching the filter `{workspace: workspaceId, _id: sid}` (at
most one exists since `_id` is unique). -/
def updateById (workspaceId : String) (sid : Nat) (f : Secret → Secret) :
    List Secret → List Secret
  | [] => []
  | s :: rest =>
    if s.workspace == workspaceId && s.id == sid then f s :: rest
    else s :: updateById workspaceId sid f rest

/-- The update document of a `toUpdate` operation: sets the four value
material fields, `$inc`-rements `version` by 1, and for a personal-type
entry stamps the `user` field.  All other fields are absent from the
update document and hence unchanged. -/
def applySecretUpdate (userId : String) (e : PushSecret) (s : Secret) : Secret :=
  { s with
    secretValueCiphertext := e.ciphertextValue
    secretValueIV := e.ivValue
    secretValueTag := e.tagValue
    secretValueHash := e.hashValue
    version := s.version + 1
    user := if e.type == SecretType.personal then some userId else s.user }

/-- Step 2a of `pushSecrets`: `Secret.bulkWrite(operations)` — the
`updateOne` operations are applied sequentially in `toUpdate` order,
each targeting `oldSecretsObj[s.hashKey]._id`. -/
def applyUpdates (userId workspaceId : String) (scope : List Secret)
    (upds : List PushSecret) (secrets : List Secret) : List Secret :=
  upds.foldl (fun acc e =>
    match oldObj scope e.hashKey with
    | some old => updateById workspaceId old.id (applySecretUpdate userId e) acc
    | none => acc) secrets

/-- The `SecretVersion` row inserted for one updated secret: version is
the stored (pre-update) version plus one, key and value material copied
from the incoming entry. -/
def mkUpdateRow (e : PushSecret) (old : Secret) : SecretVersion :=
  { secret := old.id
    version := old.version + 1
    isDeleted := false
    secretKeyCiphertext := e.ciphertextKey
    secretKeyIV := e.ivKey
    secretKeyTag := e.tagKey
    secretKeyHash := e.hashKey
    secretValueCiphertext := e.ciphertextValue
    secretValueIV := e.ivValue
    secretValueTag := e.tagValue
    secretValueHash := e.hashValue }

/-- Step 2b of `pushSecrets`: `SecretVersion.insertMany` over `toUpdate`,
each row built from the incoming entry and the `oldSecretsObj` record. -/
def updateRows (scope : List Secret) (upds : List PushSecret) : List SecretVersion :=
  upds.filterMap fun e => (oldObj scope e.hashKey).map (mkUpdateRow e)

/-- A freshly inserted `Secret` document from a `toAdd` entry.  The
`version` field is absent from the inserted object; the `Secret` schema
(in `models`, outside the embedded sources) supplies it.  Modelled from
the spec: "insert new Secret rows at version 1" / "integer version
(starts at 1)".  The `user` field is stamped exactly when the entry's
type is `personal`. -/
def mkNewSecret (userId workspaceId environment : String) (idv : Nat)
    (e : PushSecret) : Secret :=
  { id := idv
    workspace := workspaceId
    environment := environment
    type := e.type
    user := if e.type == SecretType.personal then some userId else none
    secretKeyCiphertext := e.ciphertextKey
    secretKeyIV := e.ivKey
    secretKeyTag := e.tagKey
    secretKeyHash := e.hashKey
    secretValueCiphertext := e.ciphertextValue
    secretValueIV := e.ivValue
    secretValueTag := e.tagValue
    secretValueHash := e.hashValue
    version := 1 }

/-- Step 3a of `pushSecrets`: `Secret.insertMany` over `toAdd`; the
store hands out consecutive fresh ids starting at `startId`. -/
def mkNewSecrets (userId workspaceId environment : String) (startId : Nat) :
    List PushSecret → List Secret
  | [] => []
  | e :: rest =>
    mkNewSecret userId workspaceId environment startId e ::
      mkNewSecrets userId workspaceId environment (startId + 1) rest

/-- The `SecretVersion` row inserted for one freshly added secret:
version 1, material copied from the inserted document. -/
def mkAddRow (s : Secret) : SecretVersion :=
  { secret := s.id
    version := 1
    isDeleted := false
    secretKeyCiphertext := s.secretKeyCiphertext
    secretKeyIV := s.secretKeyIV
    secretKeyTag := s.secretKeyTag
    secretKeyHash := s.secretKeyHash
    secretValueCiphertext := s.secretValueCiphertext
    secretValueIV := s.secretValueIV
    secretValueTag := s.secretValueTag
    secretValueHash := s.secretValueHash }

/-- Steps 1–2 of `pushSecrets`: the delete phase followed by the bulk
update (`Secret.bulkWrite`) and its `SecretVersion.insertMany`.  The
scope and the classifications are the ones computed from the original
store, exactly as the source computes `oldSecrets`/`oldSecretsObj` once
up front. -/
def pushUpdateStage (userId workspaceId environment : String)
    (batch : List PushSecret) (st : Store) : Store :=
  { applyDelete (toDeleteIds (pullSecrets userId workspaceId environment st) batch) st with
    secrets :=
      applyUpdates userId workspaceId (pullSecrets userId workspaceId environment st)
        (toUpdate (pullSecrets userId workspaceId environment st) batch)
        (applyDelete (toDeleteIds (pullSecrets userId workspaceId environment st) batch)
          st).secrets
    secretVersions :=
      (applyDelete (toDeleteIds (pullSecrets userId workspaceId environment st) batch)
          st).secretVersions ++
        updateRows (pullSecrets userId workspaceId environment st)
          (toUpdate (pullSecrets userId workspaceId environment st) batch) }

/-- Steps 1–3 of `pushSecrets` (every write to the `Secret` and
`SecretVersion` collections; the snapshot step follows separately).
Mirrors the source order: delete phase, bulk update plus its version
rows, insert phase (guarded by `toAdd.length > 0`) plus its version
rows. -/
def pushSecretsBody (userId workspaceId environment : String)
    (batch : List PushSecret) (st : Store) : Store :=
  if (toAdd (pullSecrets userId workspaceId environment st) batch).isEmpty then
    pushUpdateStage userId workspaceId environment batch st
  else
    { pushUpdateStage userId workspaceId environment batch st with
      secrets :=
        (pushUpdateStage userId workspaceId environment batch st).secrets ++
          mkNewSecrets userId workspaceId environment
            (pushUpdateStage userId workspaceId environment batch st).nextId
            (toAdd (pullSecrets userId workspaceId environment st) batch)
      secretVersions :=
        (pushUpdateStage userId workspaceId environment batch st).secretVersions ++
          (mkNewSecrets userId workspaceId environment
            (pushUpdateStage userId workspaceId environment batch st).nextId
            (toAdd (pullSecrets userId workspaceId environment st) batch)).map mkAddRow
      nextId :=
        (pushUpdateStage userId workspaceId environment batch st).nextId +
          (toAdd (pullSecrets userId workspaceId environment st) batch).length }

/-- The `SecretSnapshot` documents of workspace `w`. -/
def snapshotsFor (w : String) (st : Store) : List SecretSnapshot :=
  st.secretSnapshots.filter fun sn => sn.workspace == w

/-- The version of the snapshot returned by
`SecretSnapshot.findOne({workspace}).sort({version: -1})` — the highest
version among the workspace's snapshots (only the `version` field of the
returned document is ever consumed), or `none` when the workspace has no
snapshot. -/
def maxSnapshotVersion : List SecretSnapshot → Option Nat
  | [] => none
  | sn :: rest =>
    match maxSnapshotVersion rest with
    | none => some sn.version
    | some m => some (max sn.version m)

/-- `takeSecretSnapshotHelper` of the source: read every `Secret` of the
workspace (all environments), find the latest snapshot by descending
version sort, and save one new `SecretSnapshot` with version
`latest + 1`, or `1` when no snapshot exists. -/
def takeSecretSnapshotHelper (workspaceId : String) (st : Store) : Store :=
  let secrets := st.secrets.filter fun s => s.workspace == workspaceId
  let version :=
    match maxSnapshotVersion (snapshotsFor workspaceId st) with
    | none => 1
    | some m => m + 1
  { st with
    secretSnapshots :=
      st.secretSnapshots ++ [{ workspace := workspaceId, version := version, secrets := secrets }] }

/-- `pushSecrets` of the source on its success path: steps 1–3 followed
by the unconditional `takeSecretSnapshotHelper` call. -/
def pushSecrets (userId workspaceId environment : String)
    (batch : List PushSecret) (st : Store) : Store :=
  takeSecretSnapshotHelper workspaceId
    (pushSecretsBody userId workspaceId environment batch st)

/-- One push request: the arguments of a `pushSecrets` call. -/
structure PushEvent where
  userId : String
  workspaceId : String
  environment : String
  batch : List PushSecret
deriving Repr

/-- A sequence of successful pushes, applied in order (single writer:
each push completes before the next starts). -/
def pushList : List PushEvent → Store → Store
  | [], st => st
  | ev :: rest, st =>
    pushList rest (pushSecrets ev.userId ev.workspaceId ev.environment ev.batch st)

/-- `takeSecretSnapshotHelper` with its failure channel: when the
snapshot read or write raises (`snapshotStoreFails`), the catch block
rethrows `Error('Failed to take a secret snapshot')`. -/
def takeSecretSnapshotHelperE (snapshotStoreFails : Bool) (workspaceId : String)
    (st : Store) : Except String Store :=
  if snapshotStoreFails then Except.error "Failed to take a secret snapshot"
  else Except.ok (takeSecretSnapshotHelper workspaceId st)

/-- `pushSecrets` with its failure channel: the whole body, including
the `takeSecretSnapshotHelper` call, sits inside one try/catch whose
catch block rethrows `Error('Failed to push shared and personal
secrets')` whatever the caught error was. -/
def pushSecretsE (snapshotStoreFails : Bool) (userId workspaceId environment : String)
    (batch : List PushSecret) (st : Store) : Except String Store :=
  match takeSecretSnapshotHelperE snapshotStoreFails workspaceId
      (pushSecretsBody userId workspaceId environment batch st) with
  | Except.ok st4 => Except.ok st4
  | Except.error _ => Except.error "Failed to push shared and personal secrets"

/-- The `format === 'text'` branch of `decryptSecrets`, mirroring the
`forEach` with running index: for each entry append `key=value`, then
append a newline whenever `idx < secrets.length` (which holds for every
index, the last included).  The symmetric decryption primitive is an
external collaborator, passed as the function
`dec ciphertext iv tag key`. -/
def decryptSecretsTextGo (dec : String → String → String → String → String)
    (key : String) (total : Nat) : Nat → List PushSecret → String → String
  | _, [], content => content
  | idx, s :: rest, content =>
    let secretKey := dec s.ciphertextKey s.ivKey s.tagKey key
    let secretValue := dec s.ciphertextValue s.ivValue s.tagValue key
    let content := content ++ secretKey ++ "=" ++ secretValue
    let content := if idx < total then content ++ "\n" else content
    decryptSecretsTextGo dec key total (idx + 1) rest content

/-- `decryptSecrets` with `format = 'text'`: starts from the empty
string and folds `decryptSecretsTextGo` over the entries with index 0
upward. -/
def decryptSecretsText (dec : String → String → String → String → String)
    (secrets : List PushSecret) (key : String) : String :=
  decryptSecretsTextGo dec key secrets.length 0 secrets ""

/-! ### Derived definitions used to state and prove the properties -/

/-- The Boolean scope predicate: a stored secret is visible to
(`userId`, `workspaceId`, `environment`) iff it is a shared secret of
that workspace/environment or a personal secret of that scope owned by
the user.  This is exactly the union of the two `Secret.find` queries of
`pullSecrets`. -/
def inScopeB (userId workspaceId environment : String) (s : Secret) : Bool :=
  s.workspace == workspaceId && s.environment == environment &&
    (s.type == SecretType.shared ||
      (s.type == SecretType.personal && s.user == some userId))

/-- Whether the `updateOne` operation derived from entry `e` (filter
`{workspace, _id: oldSecretsObj[e.hashKey]._id}`) matches the stored
document `s`. -/
def targetsB (workspaceId : String) (scope : List Secret) (e : PushSecret)
    (s : Secret) : Bool :=
  match oldObj scope e.hashKey with
  | some old => s.workspace == workspaceId && s.id == old.id
  | none => false

/-- The pointwise effect of one `updateOne` operation on one stored
document: apply the update when the operation's filter matches it. -/
def updStep (userId workspaceId : String) (scope : List Secret) (s : Secret)
    (e : PushSecret) : Secret :=
  match oldObj scope e.hashKey with
  | some old =>
    if s.workspace == workspaceId && s.id == old.id then
      applySecretUpdate userId e s
    else s
  | none => s

/-- The pointwise effect of the whole `bulkWrite` on one stored
document: fold the update of every matching operation over it, in
operation order. -/
def applyMatching (userId workspaceId : String) (scope : List Secret)
    (upds : List PushSecret) (s : Secret) : Secret :=
  upds.foldl (updStep userId workspaceId scope) s

/-- The `SecretVersion` rows of the secret with id `i`, in insertion
order. -/
def rowsFor (i : Nat) (rows : List SecretVersion) : List SecretVersion :=
  rows.filter fun r => r.secret == i

/-- Well-formedness a real Mongo store guarantees by construction:
`_id`s of secret documents are pairwise distinct, and the fresh-id
counter dominates every secret id and every version row's secret
reference. -/
def StoreWF (st : Store) : Prop :=
  (st.secrets.map (fun s => s.id)).Nodup ∧
    (∀ s ∈ st.secrets, s.id < st.nextId) ∧
    (∀ r ∈ st.secretVersions, r.secret < st.nextId)

/-- The version-ledger invariant of claim C3: every stored secret has
version at least 1, and the versions of its `SecretVersion` rows are
exactly the contiguous sequence `1, 2, …, version` in insertion
order. -/
def LedgerInv (st : Store) : Prop :=
  StoreWF st ∧
    ∀ s ∈ st.secrets, 1 ≤ s.version ∧
      (rowsFor s.id st.secretVersions).map (fun r => r.version) =
        List.range' 1 s.version

/-- A concrete batch entry used for witnesses and counterexamples. -/
def mkEntry (k v : String) (t : SecretType) : PushSecret :=
  { ciphertextKey := "ck-" ++ k
    ivKey := "ik"
    tagKey := "tk"
    hashKey := k
    ciphertextValue := "cv-" ++ v
    ivValue := "iv"
    tagValue := "tv"
    hashValue := v
    type := t }

/-! ## Lemmas about the object lookup -/

theorem objLookup_eq_none {keyOf : Secret → String} {l : List Secret} {h : String} :
    objLookup keyOf l h = none ↔ ∀ s ∈ l, keyOf s ≠ h := by
  induction l with
  | nil => simp [objLookup]
  | cons a rest ih =>
    simp only [objLookup, List.mem_cons]
    split
    · rename_i r heq
      rw [heq] at ih
      constructor
      · intro hc; exact Option.noConfusion hc
      · intro hall
        exact Option.noConfusion (ih.mpr fun s hs => hall s (Or.inr hs))
    · rename_i heq
      rw [heq] at ih
      have hall : ∀ s ∈ rest, keyOf s ≠ h := ih.mp rfl
      by_cases hk : (keyOf a == h) = true
      · rw [if_pos hk]
        constructor
        · intro hc; exact Option.noConfusion hc
        · intro hall2
          exact absurd (eq_of_beq hk) (hall2 a (Or.inl rfl))
      · rw [if_neg hk]
        simp only [true_iff]
        intro s hs
        rcases hs with rfl | hs
        · simpa using hk
        · exact hall s hs

theorem objLookup_some {keyOf : Secret → String} {l : List Secret} {h : String}
    {s : Secret} (hfind : objLookup keyOf l h = some s) : s ∈ l ∧ keyOf s = h := by
  induction l with
  | nil => simp [objLookup] at hfind
  | cons a rest ih =>
    simp only [objLookup] at hfind
    split at hfind
    · rename_i r heq
      cases hfind
      obtain ⟨hmem, hk⟩ := ih heq
      exact ⟨List.mem_cons_of_mem _ hmem, hk⟩
    · rename_i heq
      by_cases hk : (keyOf a == h) = true
      · rw [if_pos hk] at hfind
        cases hfind
        exact ⟨List.mem_cons_self _ _, eq_of_beq hk⟩
      · rw [if_neg hk] at hfind
        exact Option.noConfusion hfind

theorem objLookup_isSome_iff {keyOf : Secret → String} {l : List Secret} {h : String} :
    (objLookup keyOf l h).isSome ↔ ∃ s ∈ l, keyOf s = h := by
  cases hl : objLookup keyOf l h with
  | none =>
    simp only [Option.isSome_none, Bool.false_eq_true, false_iff]
    intro ⟨s, hs, hk⟩
    exact (objLookup_eq_none.mp hl s hs) hk
  | some s =>
    simp only [Option.isSome_some, true_iff]
    obtain ⟨hmem, hk⟩ := objLookup_some hl
    exact ⟨s, hmem, hk⟩

theorem objLookup_of_nodup {keyOf : Secret → String} {l : List Secret}
    (hnd : (l.map keyOf).Nodup) {s : Secret} (hs : s ∈ l) :
    objLookup keyOf l (keyOf s) = some s := by
  induction l with
  | nil => simp at hs
  | cons a rest ih =>
    simp only [List.map_cons, List.nodup_cons] at hnd
    simp only [objLookup]
    rcases List.mem_cons.mp hs with rfl | hmem
    · have hnone : objLookup keyOf rest (keyOf s) = none := by
        rw [objLookup_eq_none]
        intro t ht hkt
        exact hnd.1 (hkt ▸ List.mem_map_of_mem keyOf ht)
      rw [hnone]
      simp
    · rw [ih hnd.2 hmem]

/-! ## Lemmas about `pullSecrets` -/

theorem mem_pullSecrets {u w e : String} {st : Store} {s : Secret} :
    s ∈ pullSecrets u w e st ↔ s ∈ st.secrets ∧ inScopeB u w e s = true := by
  simp only [pullSecrets, List.mem_append, List.mem_filter, inScopeB,
    personalPredB, sharedPredB]
  cases htype : s.type <;> simp [htype]

theorem pullSecrets_sub {u w e : String} {st : Store} {s : Secret}
    (hs : s ∈ pullSecrets u w e st) : s ∈ st.secrets :=
  (mem_pullSecrets.mp hs).1

theorem workspace_of_mem_pullSecrets {u w e : String} {st : Store} {s : Secret}
    (hs : s ∈ pullSecrets u w e st) : s.workspace = w := by
  have := (mem_pullSecrets.mp hs).2
  simp only [inScopeB, Bool.and_eq_true, beq_iff_eq] at this
  exact this.1.1

theorem pullSecrets_id_nodup {u w e : String} {st : Store}
    (hnd : (st.secrets.map (fun s => s.id)).Nodup) :
    ((pullSecrets u w e st).map (fun s => s.id)).Nodup := by
  have hinj := List.inj_on_of_nodup_map hnd
  simp only [pullSecrets, List.map_append, List.nodup_append]
  refine ⟨?_, ?_, ?_⟩
  · exact ((List.filter_sublist st.secrets).map _).nodup hnd
  · exact ((List.filter_sublist st.secrets).map _).nodup hnd
  · intro i hi hj
    simp only [List.mem_map, List.mem_filter] at hi hj
    obtain ⟨a, ⟨ha, hpa⟩, hai⟩ := hi
    obtain ⟨b, ⟨hb, hpb⟩, hbi⟩ := hj
    have hab : a = b := hinj ha hb (by rw [hai, hbi])
    subst hab
    simp only [personalPredB, sharedPredB, Bool.and_eq_true, beq_iff_eq] at hpa hpb
    rw [hpa.1.2] at hpb
    simp at hpb

/-! ## Classification membership lemmas -/

theorem mem_toDeleteRecords {scope : List Secret} {batch : List PushSecret} {s : Secret} :
    s ∈ toDeleteRecords scope batch ↔
      s ∈ scope ∧ ∀ e ∈ batch, e.hashKey ≠ s.secretKeyHash := by
  simp [toDeleteRecords, List.mem_filter]

theorem mem_toAdd {scope : List Secret} {batch : List PushSecret} {e : PushSecret} :
    e ∈ toAdd scope batch ↔
      e ∈ batch ∧ ∀ s ∈ scope, s.secretKeyHash ≠ e.hashKey := by
  simp only [toAdd, List.mem_filter, Option.isNone_iff_eq_none, oldObj]
  rw [objLookup_eq_none]

theorem mem_toUpdate_lookup {scope : List Secret} {batch : List PushSecret}
    {e : PushSecret} :
    e ∈ toUpdate scope batch ↔
      e ∈ batch ∧ ∃ old, oldObj scope e.hashKey = some old ∧
        (e.hashValue ≠ old.secretValueHash ∨ e.type ≠ old.type) := by
  simp only [toUpdate, List.mem_filter]
  constructor
  · rintro ⟨hmem, hpred⟩
    refine ⟨hmem, ?_⟩
    cases hfind : oldObj scope e.hashKey with
    | none => rw [hfind] at hpred; simp at hpred
    | some old =>
      rw [hfind] at hpred
      simp only [Bool.or_eq_true, bne_iff_ne, ne_eq] at hpred
      exact ⟨old, rfl, by tauto⟩
  · rintro ⟨hmem, old, hfind, hdiff⟩
    refine ⟨hmem, ?_⟩
    rw [hfind]
    simp only [Bool.or_eq_true, bne_iff_ne, ne_eq]
    tauto

theorem mem_toUpdate {scope : List Secret} {batch : List PushSecret}
    (hS : (scope.map (fun s => s.secretKeyHash)).Nodup) {e : PushSecret} :
    e ∈ toUpdate scope batch ↔
      e ∈ batch ∧ ∃ s ∈ scope, s.secretKeyHash = e.hashKey ∧
        (e.hashValue ≠ s.secretValueHash ∨ e.type ≠ s.type) := by
  rw [mem_toUpdate_lookup]
  constructor
  · rintro ⟨hmem, old, hfind, hdiff⟩
    obtain ⟨holdmem, holdkey⟩ := objLookup_some hfind
    exact ⟨hmem, old, holdmem, holdkey, hdiff⟩
  · rintro ⟨hmem, s, hsmem, hskey, hdiff⟩
    refine ⟨hmem, s, ?_, hdiff⟩
    have := objLookup_of_nodup hS hsmem
    rwa [hskey] at this

/-! ## The bulk update as a pointwise map -/

theorem applySecretUpdate_id (u : String) (e : PushSecret) (s : Secret) :
    (applySecretUpdate u e s).id = s.id := rfl

theorem applySecretUpdate_workspace (u : String) (e : PushSecret) (s : Secret) :
    (applySecretUpdate u e s).workspace = s.workspace := rfl

theorem updStep_id (u w : String) (scope : List Secret) (s : Secret)
    (e : PushSecret) : (updStep u w scope s e).id = s.id := by
  unfold updStep
  split
  · split <;> rfl
  · rfl

theorem updStep_workspace (u w : String) (scope : List Secret) (s : Secret)
    (e : PushSecret) : (updStep u w scope s e).workspace = s.workspace := by
  unfold updStep
  split
  · split <;> rfl
  · rfl

theorem targetsB_applySecretUpdate (w : String) (scope : List Secret)
    (x : PushSecret) (u : String) (e : PushSecret) (s : Secret) :
    targetsB w scope x (applySecretUpdate u e s) = targetsB w scope x s := by
  unfold targetsB
  split <;> rfl

theorem updStep_of_not_target {u w : String} {scope : List Secret} {s : Secret}
    {e : PushSecret} (h : targetsB w scope e s = false) :
    updStep u w scope s e = s := by
  unfold targetsB at h
  split at h
  · rename_i old heq
    simp only [updStep, heq]
    rw [if_neg (by simp [h])]
  · rename_i heq
    simp only [updStep, heq]

theorem updStep_of_target {u w : String} {scope : List Secret} {s : Secret}
    {e : PushSecret} (h : targetsB w scope e s = true) :
    updStep u w scope s e = applySecretUpdate u e s := by
  unfold targetsB at h
  split at h
  · rename_i old heq
    simp only [updStep, heq]
    rw [if_pos h]
  · simp at h

theorem applyMatching_cons (u w : String) (scope : List Secret) (e : PushSecret)
    (upds : List PushSecret) (s : Secret) :
    applyMatching u w scope (e :: upds) s =
      applyMatching u w scope upds (updStep u w scope s e) := rfl

theorem applyMatching_of_no_target {u w : String} {scope : List Secret}
    {upds : List PushSecret} {s : Secret}
    (h : ∀ e ∈ upds, targetsB w scope e s = false) :
    applyMatching u w scope upds s = s := by
  induction upds with
  | nil => rfl
  | cons e rest ih =>
    rw [applyMatching_cons, updStep_of_not_target (h e (List.mem_cons_self _ _))]
    exact ih fun x hx => h x (List.mem_cons_of_mem _ hx)

theorem applyMatching_of_unique_target {u w : String} {scope : List Secret}
    {u₁ u₂ : List PushSecret} {e : PushSecret} {s : Secret}
    (h1 : ∀ x ∈ u₁, targetsB w scope x s = false)
    (h2 : ∀ x ∈ u₂, targetsB w scope x s = false)
    (he : targetsB w scope e s = true) :
    applyMatching u w scope (u₁ ++ e :: u₂) s = applySecretUpdate u e s := by
  induction u₁ with
  | nil =>
    rw [List.nil_append, applyMatching_cons, updStep_of_target he]
    exact applyMatching_of_no_target fun x hx => by
      rw [targetsB_applySecretUpdate]
      exact h2 x hx
  | cons a rest ih =>
    rw [List.cons_append, applyMatching_cons,
      updStep_of_not_target (h1 a (List.mem_cons_self _ _))]
    exact ih fun x hx => h1 x (List.mem_cons_of_mem _ hx)

theorem exists_first_hit {α : Type} (p : α → Bool) {l : List α}
    (h : l.any p = true) :
    ∃ l₁ a l₂, l = l₁ ++ a :: l₂ ∧ p a = true ∧ ∀ x ∈ l₁, p x = false := by
  induction l with
  | nil => simp at h
  | cons a rest ih =>
    by_cases hp : p a = true
    · exact ⟨[], a, rest, rfl, hp, by simp⟩
    · have hrest : rest.any p = true := by
        simp only [List.any_cons, Bool.or_eq_true] at h
        tauto
      obtain ⟨l₁, b, l₂, heq, hb, hl₁⟩ := ih hrest
      refine ⟨a :: l₁, b, l₂, by rw [heq, List.cons_append], hb, ?_⟩
      intro x hx
      rcases List.mem_cons.mp hx with rfl | hx
      · simpa using hp
      · exact hl₁ x hx

theorem target_unique {w : String} {scope : List Secret} {upds : List PushSecret}
    (hscope : (scope.map (fun s => s.id)).Nodup)
    (hU : (upds.map (fun e => e.hashKey)).Nodup)
    {e₁ e₂ : PushSecret} (h₁ : e₁ ∈ upds) (h₂ : e₂ ∈ upds) {s : Secret}
    (ht₁ : targetsB w scope e₁ s = true) (ht₂ : targetsB w scope e₂ s = true) :
    e₁ = e₂ := by
  unfold targetsB at ht₁ ht₂
  split at ht₁
  case h_2 => simp at ht₁
  case h_1 old₁ hf₁ =>
  split at ht₂
  case h_2 => simp at ht₂
  case h_1 old₂ hf₂ =>
  simp only [Bool.and_eq_true, beq_iff_eq] at ht₁ ht₂
  obtain ⟨hm₁, hk₁⟩ := objLookup_some hf₁
  obtain ⟨hm₂, hk₂⟩ := objLookup_some hf₂
  have holds : old₁ = old₂ :=
    List.inj_on_of_nodup_map hscope hm₁ hm₂ (by rw [← ht₁.2, ← ht₂.2])
  exact List.inj_on_of_nodup_map hU h₁ h₂ (by rw [← hk₁, holds, hk₂])

/-- Either no operation of the bulk write matches the document and it is
left unchanged, or exactly one entry matches it and the composite effect
is that entry's update. -/
theorem applyMatching_cases {u w : String} {scope : List Secret}
    {upds : List PushSecret} (s : Secret)
    (hscope : (scope.map (fun t => t.id)).Nodup)
    (hU : (upds.map (fun e => e.hashKey)).Nodup) :
    (applyMatching u w scope upds s = s ∧
      ∀ e ∈ upds, targetsB w scope e s = false) ∨
    (∃ u₁ e u₂, upds = u₁ ++ e :: u₂ ∧ targetsB w scope e s = true ∧
      (∀ x ∈ u₁, targetsB w scope x s = false) ∧
      (∀ x ∈ u₂, targetsB w scope x s = false) ∧
      applyMatching u w scope upds s = applySecretUpdate u e s) := by
  by_cases hany : upds.any (fun e => targetsB w scope e s) = true
  · obtain ⟨u₁, e, u₂, heq, he, hu₁⟩ := exists_first_hit _ hany
    subst heq
    have hu₂ : ∀ x ∈ u₂, targetsB w scope x s = false := by
      intro x hx
      by_contra hxt
      have hxt' : targetsB w scope x s = true := by
        simpa using hxt
      have hex : x = e := target_unique hscope hU
        (by simp [hx]) (by simp) hxt' he
      subst hex
      have : x.hashKey ∈ (u₂.map fun e => e.hashKey) :=
        List.mem_map_of_mem _ hx
      have hnd' := hU
      simp only [List.map_append, List.map_cons, List.nodup_append,
        List.nodup_cons] at hnd'
      exact hnd'.2.1.1 this
    exact Or.inr ⟨u₁, e, u₂, rfl, he, hu₁, hu₂,
      applyMatching_of_unique_target hu₁ hu₂ he⟩
  · left
    have hall : ∀ e ∈ upds, targetsB w scope e s = false := by
      intro e he
      by_contra hc
      exact hany (List.any_eq_true.mpr ⟨e, he, by simpa using hc⟩)
    exact ⟨applyMatching_of_no_target hall, hall⟩

theorem applyMatching_id (u w : String) (scope : List Secret)
    (upds : List PushSecret) (s : Secret) :
    (applyMatching u w scope upds s).id = s.id := by
  induction upds generalizing s with
  | nil => rfl
  | cons e rest ih =>
    rw [applyMatching_cons, ih, updStep_id]

theorem applyMatching_workspace (u w : String) (scope : List Secret)
    (upds : List PushSecret) (s : Secret) :
    (applyMatching u w scope upds s).workspace = s.workspace := by
  induction upds generalizing s with
  | nil => rfl
  | cons e rest ih =>
    rw [applyMatching_cons, ih, updStep_workspace]

theorem updateById_map_id {w : String} {sid : Nat} (f : Secret → Secret)
    (hf : ∀ s, (f s).id = s.id) (l : List Secret) :
    (updateById w sid f l).map (fun s => s.id) = l.map (fun s => s.id) := by
  induction l with
  | nil => rfl
  | cons a rest ih =>
    unfold updateById
    split
    · simp [hf]
    · simp only [List.map_cons]
      rw [ih]

theorem map_if_not_hit {w : String} {sid : Nat} {f : Secret → Secret}
    {l : List Secret} (h : ∀ s ∈ l, (s.id == sid) = false) :
    (l.map fun s => if s.workspace == w && s.id == sid then f s else s) = l := by
  induction l with
  | nil => rfl
  | cons a rest ih =>
    simp only [List.map_cons]
    rw [if_neg (by simp [h a (List.mem_cons_self _ _)]),
      ih fun s hs => h s (List.mem_cons_of_mem _ hs)]

theorem updateById_eq_map {w : String} {sid : Nat} {f : Secret → Secret}
    {l : List Secret} (hnd : (l.map (fun s => s.id)).Nodup) :
    updateById w sid f l =
      l.map fun s => if s.workspace == w && s.id == sid then f s else s := by
  induction l with
  | nil => rfl
  | cons a rest ih =>
    simp only [List.map_cons, List.nodup_cons] at hnd
    unfold updateById
    split
    · rename_i hcond
      have hsid : a.id = sid := by
        simp only [Bool.and_eq_true, beq_iff_eq] at hcond
        exact hcond.2
      have hrest : ∀ s ∈ rest, (s.id == sid) = false := by
        intro s hs
        simp only [beq_eq_false_iff_ne, ne_eq]
        intro hcontra
        apply hnd.1
        rw [← hsid] at hcontra
        exact hcontra ▸ List.mem_map_of_mem (fun s => s.id) hs
      simp only [List.map_cons]
      rw [if_pos hcond, map_if_not_hit hrest]
    · rename_i hcond
      simp only [List.map_cons]
      rw [if_neg hcond, ih hnd.2]

/-- The sequential `bulkWrite` equals the pointwise map of
`applyMatching` over the collection, provided document ids are unique
(which Mongo guarantees for `_id`). -/
theorem applyUpdates_eq_map {u w : String} {scope : List Secret}
    {upds : List PushSecret} {l : List Secret}
    (hnd : (l.map (fun s => s.id)).Nodup) :
    applyUpdates u w scope upds l = l.map (applyMatching u w scope upds) := by
  induction upds generalizing l with
  | nil =>
    simp only [applyUpdates, List.foldl_nil]
    have : ∀ s ∈ l, applyMatching u w scope [] s = s := fun s _ => rfl
    rw [(List.map_congr_left this).trans (List.map_id _)]
  | cons e rest ih =>
    cases hfind : oldObj scope e.hashKey with
    | none =>
      have hstep : applyUpdates u w scope (e :: rest) l =
          applyUpdates u w scope rest l := by
        simp only [applyUpdates, List.foldl_cons, hfind]
      rw [hstep, ih hnd]
      refine List.map_congr_left fun s _ => ?_
      rw [applyMatching_cons]
      have : updStep u w scope s e = s := by
        unfold updStep
        rw [hfind]
      rw [this]
    | some old =>
      have hstep : applyUpdates u w scope (e :: rest) l =
          applyUpdates u w scope rest
            (updateById w old.id (applySecretUpdate u e) l) := by
        simp only [applyUpdates, List.foldl_cons, hfind]
      have hnd' : ((updateById w old.id (applySecretUpdate u e) l).map
          (fun s => s.id)).Nodup := by
        rw [updateById_map_id (applySecretUpdate u e) (fun s => rfl)]
        exact hnd
      rw [hstep, ih hnd', updateById_eq_map hnd, List.map_map]
      refine List.map_congr_left fun s _ => ?_
      simp only [Function.comp]
      rw [applyMatching_cons]
      have : updStep u w scope s e =
          if s.workspace == w && s.id == old.id then
            applySecretUpdate u e s
          else s := by
        unfold updStep
        rw [hfind]
      rw [this]

/-! ## Shape of the delete phase and of the push body -/

theorem applyDelete_secrets (dels : List Nat) (st : Store) :
    (applyDelete dels st).secrets =
      st.secrets.filter fun s => !(dels.contains s.id) := by
  cases dels with
  | nil =>
    simp only [applyDelete, List.isEmpty_nil, if_pos]
    have : ∀ s ∈ st.secrets, (!(List.contains [] s.id)) = true := by
      intro s _
      rfl
    rw [List.filter_eq_self.mpr this]
  | cons a l => rfl

theorem applyDelete_secretVersions (dels : List Nat) (st : Store) :
    (applyDelete dels st).secretVersions =
      st.secretVersions.map fun r =>
        if dels.contains r.secret then { r with isDeleted := true } else r := by
  cases dels with
  | nil =>
    simp only [applyDelete, List.isEmpty_nil, if_pos]
    have : ∀ r ∈ st.secretVersions,
        (if List.contains [] r.secret then
          ({ r with isDeleted := true } : SecretVersion) else r) = r := by
      intro r _
      rfl
    rw [List.map_congr_left this]
    simp
  | cons a l => rfl

theorem applyDelete_secretSnapshots (dels : List Nat) (st : Store) :
    (applyDelete dels st).secretSnapshots = st.secretSnapshots := by
  unfold applyDelete
  split <;> rfl

theorem applyDelete_nextId (dels : List Nat) (st : Store) :
    (applyDelete dels st).nextId = st.nextId := by
  unfold applyDelete
  split <;> rfl

theorem mkNewSecrets_nil (u w ev : String) (n : Nat) :
    mkNewSecrets u w ev n [] = [] := rfl

theorem updateRows_nil (scope : List Secret) : updateRows scope [] = [] := rfl

theorem applyUpdates_nil (u w : String) (scope : List Secret)
    (l : List Secret) : applyUpdates u w scope [] l = l := rfl

theorem applyDelete_nil (st : Store) : applyDelete [] st = st := rfl

theorem pushUpdateStage_secrets (u w ev : String) (batch : List PushSecret)
    (st : Store) :
    (pushUpdateStage u w ev batch st).secrets =
      applyUpdates u w (pullSecrets u w ev st)
        (toUpdate (pullSecrets u w ev st) batch)
        (applyDelete (toDeleteIds (pullSecrets u w ev st) batch) st).secrets := rfl

theorem pushUpdateStage_secretVersions (u w ev : String) (batch : List PushSecret)
    (st : Store) :
    (pushUpdateStage u w ev batch st).secretVersions =
      (applyDelete (toDeleteIds (pullSecrets u w ev st) batch) st).secretVersions ++
        updateRows (pullSecrets u w ev st)
          (toUpdate (pullSecrets u w ev st) batch) := rfl

theorem pushUpdateStage_nextId (u w ev : String) (batch : List PushSecret)
    (st : Store) :
    (pushUpdateStage u w ev batch st).nextId = st.nextId :=
  applyDelete_nextId _ _

theorem pushUpdateStage_secretSnapshots (u w ev : String) (batch : List PushSecret)
    (st : Store) :
    (pushUpdateStage u w ev batch st).secretSnapshots = st.secretSnapshots :=
  applyDelete_secretSnapshots _ _

theorem pushSecretsBody_secrets (u w ev : String) (batch : List PushSecret)
    (st : Store) :
    (pushSecretsBody u w ev batch st).secrets =
      applyUpdates u w (pullSecrets u w ev st)
        (toUpdate (pullSecrets u w ev st) batch)
        (applyDelete (toDeleteIds (pullSecrets u w ev st) batch) st).secrets ++
      mkNewSecrets u w ev st.nextId (toAdd (pullSecrets u w ev st) batch) := by
  unfold pushSecretsBody
  split
  · rename_i hemp
    rw [List.isEmpty_iff] at hemp
    rw [hemp, mkNewSecrets_nil, List.append_nil, pushUpdateStage_secrets]
  · rw [pushUpdateStage_nextId]
    rw [pushUpdateStage_secrets]

theorem pushSecretsBody_secretVersions (u w ev : String) (batch : List PushSecret)
    (st : Store) :
    (pushSecretsBody u w ev batch st).secretVersions =
      (applyDelete (toDeleteIds (pullSecrets u w ev st) batch) st).secretVersions ++
      updateRows (pullSecrets u w ev st) (toUpdate (pullSecrets u w ev st) batch) ++
      (mkNewSecrets u w ev st.nextId (toAdd (pullSecrets u w ev st) batch)).map
        mkAddRow := by
  unfold pushSecretsBody
  split
  · rename_i hemp
    rw [List.isEmpty_iff] at hemp
    rw [hemp, mkNewSecrets_nil, List.map_nil, List.append_nil,
      pushUpdateStage_secretVersions]
  · rw [pushUpdateStage_nextId]
    rw [pushUpdateStage_secretVersions]

theorem pushSecretsBody_secretSnapshots (u w ev : String) (batch : List PushSecret)
    (st : Store) :
    (pushSecretsBody u w ev batch st).secretSnapshots = st.secretSnapshots := by
  unfold pushSecretsBody
  split
  · exact pushUpdateStage_secretSnapshots _ _ _ _ _
  · exact pushUpdateStage_secretSnapshots _ _ _ _ _

theorem pushSecretsBody_nextId (u w ev : String) (batch : List PushSecret)
    (st : Store) :
    (pushSecretsBody u w ev batch st).nextId =
      st.nextId + (toAdd (pullSecrets u w ev st) batch).length := by
  unfold pushSecretsBody
  split
  · rename_i hemp
    rw [List.isEmpty_iff] at hemp
    rw [pushUpdateStage_nextId, hemp]
    rfl
  · rw [pushUpdateStage_nextId]

/-! ## Snapshot lemmas -/

theorem maxSnapshotVersion_eq_none {l : List SecretSnapshot} :
    maxSnapshotVersion l = none ↔ l = [] := by
  cases l with
  | nil => simp [maxSnapshotVersion]
  | cons a rest =>
    simp only [maxSnapshotVersion]
    split <;> simp

theorem maxSnapshotVersion_spec {l : List SecretSnapshot} {m : Nat}
    (h : maxSnapshotVersion l = some m) :
    (∃ sn ∈ l, sn.version = m) ∧ ∀ sn ∈ l, sn.version ≤ m := by
  induction l generalizing m with
  | nil => simp [maxSnapshotVersion] at h
  | cons a rest ih =>
    simp only [maxSnapshotVersion] at h
    cases hrest : maxSnapshotVersion rest with
    | none =>
      rw [hrest] at h
      cases h
      have : rest = [] := maxSnapshotVersion_eq_none.mp hrest
      subst this
      exact ⟨⟨a, by simp⟩, by simp⟩
    | some mr =>
      rw [hrest] at h
      cases h
      obtain ⟨⟨sn, hsn, hv⟩, hall⟩ := ih hrest
      constructor
      · by_cases hc : a.version ≤ mr
        · refine ⟨sn, by simp [hsn], ?_⟩
          rw [hv]
          exact (max_eq_right hc).symm
        · push_neg at hc
          exact ⟨a, by simp, (max_eq_left (le_of_lt hc)).symm⟩
      · intro x hx
        rcases List.mem_cons.mp hx with rfl | hx
        · exact le_max_left _ _
        · exact le_trans (hall x hx) (le_max_right _ _)

theorem range'_one_concat (n : Nat) :
    List.range' 1 (n + 1) = List.range' 1 n ++ [n + 1] := by
  rw [List.range'_concat]
  simp [Nat.add_comm]

theorem takeSecretSnapshotHelper_secrets (w : String) (st : Store) :
    (takeSecretSnapshotHelper w st).secrets = st.secrets := rfl

theorem takeSecretSnapshotHelper_secretVersions (w : String) (st : Store) :
    (takeSecretSnapshotHelper w st).secretVersions = st.secretVersions := rfl

theorem takeSecretSnapshotHelper_nextId (w : String) (st : Store) :
    (takeSecretSnapshotHelper w st).nextId = st.nextId := rfl

theorem snapshotsFor_helper_same (w : String) (st : Store) :
    snapshotsFor w (takeSecretSnapshotHelper w st) =
      snapshotsFor w st ++
        [{ workspace := w
           version :=
             match maxSnapshotVersion (snapshotsFor w st) with
             | none => 1
             | some m => m + 1
           secrets := st.secrets.filter fun s => s.workspace == w }] := by
  unfold snapshotsFor takeSecretSnapshotHelper
  rw [List.filter_append]
  simp only [List.filter_cons, beq_self_eq_true, if_pos, List.filter_nil]
  rfl

theorem snapshotsFor_helper_other {w w' : String} (st : Store) (h : w' ≠ w) :
    snapshotsFor w' (takeSecretSnapshotHelper w st) = snapshotsFor w' st := by
  unfold snapshotsFor takeSecretSnapshotHelper
  rw [List.filter_append]
  simp [beq_iff_eq, h.symm]

theorem snapshot_versions_step {w : String} {st : Store} {n : Nat}
    (h : ((snapshotsFor w st).map fun sn => sn.version) = List.range' 1 n) :
    ((snapshotsFor w (takeSecretSnapshotHelper w st)).map fun sn => sn.version) =
      List.range' 1 (n + 1) := by
  rw [snapshotsFor_helper_same, List.map_append, h, List.map_cons, List.map_nil,
    range'_one_concat]
  cases n with
  | zero =>
    have hnil : snapshotsFor w st = [] := by
      have := h
      rw [List.range'] at this
      exact List.map_eq_nil_iff.mp this
    rw [maxSnapshotVersion_eq_none.mpr hnil]
  | succ k =>
    have hne : snapshotsFor w st ≠ [] := by
      intro hc
      rw [hc] at h
      simp only [List.map_nil] at h
      have : (List.range' 1 (k + 1)).length = 0 := by rw [← h]; rfl
      rw [List.length_range'] at this
      omega
    cases hmax : maxSnapshotVersion (snapshotsFor w st) with
    | none => exact absurd (maxSnapshotVersion_eq_none.mp hmax) hne
    | some m =>
      obtain ⟨⟨sn, hsn, hv⟩, hall⟩ := maxSnapshotVersion_spec hmax
      have hm_mem : m ∈ List.range' 1 (k + 1) := by
        rw [← h]
        exact hv ▸ List.mem_map_of_mem _ hsn
      have hm_le : m ≤ k + 1 := by
        rw [List.mem_range'_1] at hm_mem
        omega
      have hk_mem : (k + 1) ∈ (snapshotsFor w st).map fun sn => sn.version := by
        rw [h, List.mem_range'_1]
        omega
      obtain ⟨sn', hsn', hv'⟩ := List.mem_map.mp hk_mem
      have hle : k + 1 ≤ m := hv' ▸ hall sn' hsn'
      have : m = k + 1 := le_antisymm hm_le hle
      subst this
      rfl

theorem snapshotsFor_body (w u w' ev : String) (batch : List PushSecret)
    (st : Store) :
    snapshotsFor w (pushSecretsBody u w' ev batch st) = snapshotsFor w st := by
  unfold snapshotsFor
  rw [pushSecretsBody_secretSnapshots]

/-- Snapshot versions of a workspace along any sequence of pushes: each
push to the workspace appends one snapshot with the next version, pushes
to other workspaces leave the workspace's snapshots unchanged. -/
theorem pushList_snapshot_versions (w : String) (evs : List PushEvent)
    (st : Store) (n : Nat)
    (h : ((snapshotsFor w st).map fun sn => sn.version) = List.range' 1 n) :
    ((snapshotsFor w (pushList evs st)).map fun sn => sn.version) =
      List.range' 1 (n + evs.countP fun ev => ev.workspaceId == w) := by
  induction evs generalizing st n with
  | nil => simpa using h
  | cons ev rest ih =>
    show ((snapshotsFor w (pushList rest
        (pushSecrets ev.userId ev.workspaceId ev.environment ev.batch st))).map
          fun sn => sn.version) = _
    by_cases hw : ev.workspaceId = w
    · have hstep : ((snapshotsFor w
          (pushSecrets ev.userId ev.workspaceId ev.environment ev.batch st)).map
            fun sn => sn.version) = List.range' 1 (n + 1) := by
        unfold pushSecrets
        rw [hw]
        refine snapshot_versions_step ?_
        rw [snapshotsFor_body]
        exact h
      have := ih _ _ hstep
      rw [this, List.countP_cons, if_pos (by simp [hw])]
      have harith : n + 1 + (rest.countP fun ev => ev.workspaceId == w) =
          n + ((rest.countP fun ev => ev.workspaceId == w) + 1) := by omega
      rw [harith]
    · have hstep : ((snapshotsFor w
          (pushSecrets ev.userId ev.workspaceId ev.environment ev.batch st)).map
            fun sn => sn.version) = List.range' 1 n := by
        unfold pushSecrets
        rw [snapshotsFor_helper_other _ (fun hc => hw hc.symm), snapshotsFor_body]
        exact h
      have := ih _ _ hstep
      rw [this, List.countP_cons, if_neg (by simp [hw]), Nat.add_zero]

/-! ## Lemmas about freshly inserted secrets and version rows -/

theorem mkNewSecrets_map_id (u w ev : String) (n : Nat) (adds : List PushSecret) :
    (mkNewSecrets u w ev n adds).map (fun s => s.id) =
      List.range' n adds.length := by
  induction adds generalizing n with
  | nil => rfl
  | cons a rest ih =>
    simp only [mkNewSecrets, List.map_cons, ih]
    rfl

theorem mem_mkNewSecrets {u w ev : String} {n : Nat} {adds : List PushSecret}
    {s : Secret} (hs : s ∈ mkNewSecrets u w ev n adds) :
    ∃ a ∈ adds, ∃ k, k < adds.length ∧ s = mkNewSecret u w ev (n + k) a := by
  induction adds generalizing n with
  | nil => cases hs
  | cons a rest ih =>
    rcases List.mem_cons.mp hs with rfl | hmem
    · exact ⟨a, by simp, 0, by simp, by rw [Nat.add_zero]⟩
    · obtain ⟨b, hb, k, hk, heq⟩ := ih hmem
      refine ⟨b, by simp [hb], k + 1, by simpa using hk, ?_⟩
      rw [heq]
      congr 1
      omega

theorem mkNewSecrets_mem_of (u w ev : String) (n : Nat) {adds : List PushSecret}
    {a : PushSecret} (ha : a ∈ adds) :
    ∃ s ∈ mkNewSecrets u w ev n adds, ∃ k, s = mkNewSecret u w ev (n + k) a := by
  induction adds generalizing n with
  | nil => cases ha
  | cons b rest ih =>
    rcases List.mem_cons.mp ha with rfl | hmem
    · exact ⟨mkNewSecret u w ev n a, by simp [mkNewSecrets],
        0, by rw [Nat.add_zero]⟩
    · obtain ⟨s, hs, k, heq⟩ := ih (n + 1) hmem
      refine ⟨s, by simp [mkNewSecrets, hs], k + 1, ?_⟩
      rw [heq]
      congr 1
      omega

theorem rowsFor_append (i : Nat) (r1 r2 : List SecretVersion) :
    rowsFor i (r1 ++ r2) = rowsFor i r1 ++ rowsFor i r2 :=
  List.filter_append _ _

theorem rowsFor_eq_nil {i : Nat} {rows : List SecretVersion}
    (h : ∀ r ∈ rows, r.secret ≠ i) : rowsFor i rows = [] := by
  unfold rowsFor
  rw [List.filter_eq_nil_iff]
  intro r hr
  simp [h r hr]

theorem rowsFor_map_flag (i : Nat) (dels : List Nat)
    (rows : List SecretVersion) :
    ((rowsFor i (rows.map fun r =>
        if dels.contains r.secret then { r with isDeleted := true } else r)).map
      fun r => r.version) =
      ((rowsFor i rows).map fun r => r.version) := by
  unfold rowsFor
  rw [List.filter_map]
  rw [List.map_map]
  have hpred : ∀ r ∈ rows,
      (((fun r => r.secret == i) ∘ fun r =>
        if dels.contains r.secret then { r with isDeleted := true } else r) r) =
        (r.secret == i) := by
    intro r _
    simp only [Function.comp]
    split <;> rfl
  rw [List.filter_congr hpred]
  refine List.map_congr_left fun r _ => ?_
  simp only [Function.comp]
  split <;> rfl

theorem updateRows_nil_of_no_old {scope : List Secret} {upds : List PushSecret}
    {i : Nat}
    (h : ∀ e ∈ upds, ∀ old, oldObj scope e.hashKey = some old → old.id ≠ i) :
    rowsFor i (updateRows scope upds) = [] := by
  induction upds with
  | nil => rfl
  | cons e rest ih =>
    cases hfind : oldObj scope e.hashKey with
    | none =>
      have : updateRows scope (e :: rest) = updateRows scope rest := by
        simp only [updateRows, List.filterMap_cons, hfind, Option.map_none']
      rw [this]
      exact ih fun x hx => h x (List.mem_cons_of_mem _ hx)
    | some old =>
      have : updateRows scope (e :: rest) =
          mkUpdateRow e old :: updateRows scope rest := by
        simp only [updateRows, List.filterMap_cons, hfind, Option.map_some']
      rw [this]
      unfold rowsFor
      rw [List.filter_cons, if_neg (by
        simp only [mkUpdateRow, beq_iff_eq]
        exact fun hc => (h e (List.mem_cons_self _ _) old hfind) (by simpa using hc))]
      exact ih fun x hx => h x (List.mem_cons_of_mem _ hx)

theorem rowsFor_updateRows_single {scope : List Secret}
    {u₁ u₂ : List PushSecret} {e : PushSecret} {old : Secret}
    (hfind : oldObj scope e.hashKey = some old)
    (h1 : ∀ x ∈ u₁, ∀ o, oldObj scope x.hashKey = some o → o.id ≠ old.id)
    (h2 : ∀ x ∈ u₂, ∀ o, oldObj scope x.hashKey = some o → o.id ≠ old.id) :
    rowsFor old.id (updateRows scope (u₁ ++ e :: u₂)) = [mkUpdateRow e old] := by
  have happ : updateRows scope (u₁ ++ e :: u₂) =
      updateRows scope u₁ ++ updateRows scope (e :: u₂) := by
    simp only [updateRows, List.filterMap_append]
  rw [happ, rowsFor_append, updateRows_nil_of_no_old h1, List.nil_append]
  have hcons : updateRows scope (e :: u₂) =
      mkUpdateRow e old :: updateRows scope u₂ := by
    simp only [updateRows, List.filterMap_cons, hfind, Option.map_some']
  rw [hcons]
  unfold rowsFor
  rw [List.filter_cons, if_pos (by simp [mkUpdateRow])]
  rw [show List.filter (fun r => r.secret == old.id) (updateRows scope u₂) =
      rowsFor old.id (updateRows scope u₂) from rfl]
  rw [updateRows_nil_of_no_old h2]

theorem rowsFor_addRows {news : List Secret}
    (hnd : (news.map (fun s => s.id)).Nodup) {s : Secret} (hs : s ∈ news) :
    rowsFor s.id (news.map mkAddRow) = [mkAddRow s] := by
  induction news with
  | nil => cases hs
  | cons a rest ih =>
    simp only [List.map_cons, List.nodup_cons] at hnd
    rcases List.mem_cons.mp hs with rfl | hmem
    · unfold rowsFor
      rw [List.map_cons, List.filter_cons, if_pos (by simp [mkAddRow])]
      have : List.filter (fun r => r.secret == s.id) (rest.map mkAddRow) = [] := by
        rw [List.filter_eq_nil_iff]
        intro r hr
        obtain ⟨t, ht, rfl⟩ := List.mem_map.mp hr
        simp only [mkAddRow, beq_iff_eq]
        intro hc
        exact hnd.1 (hc ▸ List.mem_map_of_mem _ ht)
      rw [this]
    · have hne : (mkAddRow a).secret ≠ s.id := by
        simp only [mkAddRow]
        intro hc
        exact hnd.1 (hc ▸ List.mem_map_of_mem _ hmem)
      unfold rowsFor
      rw [List.map_cons, List.filter_cons, if_neg (by simpa using hne)]
      exact ih hnd.2 hmem

theorem applySecretUpdate_version (u : String) (e : PushSecret) (s : Secret) :
    (applySecretUpdate u e s).version = s.version + 1 := rfl

theorem mkUpdateRow_secret (e : PushSecret) (old : Secret) :
    (mkUpdateRow e old).secret = old.id := rfl

theorem mkUpdateRow_version (e : PushSecret) (old : Secret) :
    (mkUpdateRow e old).version = old.version + 1 := rfl

theorem mkAddRow_secret (s : Secret) : (mkAddRow s).secret = s.id := rfl

theorem mkAddRow_version (s : Secret) : (mkAddRow s).version = 1 := rfl

theorem mkNewSecret_id (u w ev : String) (n : Nat) (e : PushSecret) :
    (mkNewSecret u w ev n e).id = n := rfl

theorem mkNewSecret_version (u w ev : String) (n : Nat) (e : PushSecret) :
    (mkNewSecret u w ev n e).version = 1 := rfl

theorem mem_updateRows {scope : List Secret} {upds : List PushSecret}
    {r : SecretVersion} (hr : r ∈ updateRows scope upds) :
    ∃ e ∈ upds, ∃ old, oldObj scope e.hashKey = some old ∧
      r = mkUpdateRow e old := by
  unfold updateRows at hr
  obtain ⟨e, he, hsome⟩ := List.mem_filterMap.mp hr
  cases hfind : oldObj scope e.hashKey with
  | none =>
    rw [hfind] at hsome
    cases hsome
  | some old =>
    rw [hfind] at hsome
    simp only [Option.map_some', Option.some.injEq] at hsome
    exact ⟨e, he, old, hfind, hsome.symm⟩

/-! ## Preservation of the version-ledger invariant by one push -/

theorem pushSecrets_ledgerInv (u w ev : String) (batch : List PushSecret)
    (st : Store) (hinv : LedgerInv st)
    (hB : (batch.map (fun e => e.hashKey)).Nodup) :
    LedgerInv (pushSecrets u w ev batch st) := by
  obtain ⟨⟨hnd, hidlt, hrowlt⟩, hver⟩ := hinv
  have hscope_nd : ((pullSecrets u w ev st).map (fun s => s.id)).Nodup :=
    pullSecrets_id_nodup hnd
  have hU_nd : ((toUpdate (pullSecrets u w ev st) batch).map
      (fun e => e.hashKey)).Nodup :=
    ((List.filter_sublist batch).map _).nodup hB
  have hnews_ids : (mkNewSecrets u w ev st.nextId
      (toAdd (pullSecrets u w ev st) batch)).map (fun s => s.id) =
      List.range' st.nextId (toAdd (pullSecrets u w ev st) batch).length :=
    mkNewSecrets_map_id _ _ _ _ _
  have hnews_nd : ((mkNewSecrets u w ev st.nextId
      (toAdd (pullSecrets u w ev st) batch)).map (fun s => s.id)).Nodup := by
    rw [hnews_ids]
    exact List.nodup_range' _ _
  have hnews_ge : ∀ s ∈ mkNewSecrets u w ev st.nextId
      (toAdd (pullSecrets u w ev st) batch),
      st.nextId ≤ s.id ∧ s.id < st.nextId +
        (toAdd (pullSecrets u w ev st) batch).length := by
    intro s hs
    have : s.id ∈ List.range' st.nextId
        (toAdd (pullSecrets u w ev st) batch).length := by
      rw [← hnews_ids]
      exact List.mem_map_of_mem _ hs
    rw [List.mem_range'_1] at this
    omega
  have hst1_secrets := applyDelete_secrets
    (toDeleteIds (pullSecrets u w ev st) batch) st
  have hst1_sub : ∀ s ∈ (applyDelete (toDeleteIds (pullSecrets u w ev st) batch)
      st).secrets, s ∈ st.secrets := by
    rw [hst1_secrets]
    exact fun s hs => (List.mem_filter.mp hs).1
  have hst1_nd : (((applyDelete (toDeleteIds (pullSecrets u w ev st) batch)
      st).secrets).map (fun s => s.id)).Nodup := by
    rw [hst1_secrets]
    exact ((List.filter_sublist _).map _).nodup hnd
  have hst1_rows := applyDelete_secretVersions
    (toDeleteIds (pullSecrets u w ev st) batch) st
  have hsecrets_eq : (pushSecrets u w ev batch st).secrets =
      ((applyDelete (toDeleteIds (pullSecrets u w ev st) batch) st).secrets).map
        (applyMatching u w (pullSecrets u w ev st)
          (toUpdate (pullSecrets u w ev st) batch)) ++
      mkNewSecrets u w ev st.nextId (toAdd (pullSecrets u w ev st) batch) := by
    unfold pushSecrets
    rw [takeSecretSnapshotHelper_secrets, pushSecretsBody_secrets,
      applyUpdates_eq_map hst1_nd]
  have hversions_eq : (pushSecrets u w ev batch st).secretVersions =
      (applyDelete (toDeleteIds (pullSecrets u w ev st) batch)
        st).secretVersions ++
      updateRows (pullSecrets u w ev st)
        (toUpdate (pullSecrets u w ev st) batch) ++
      (mkNewSecrets u w ev st.nextId
        (toAdd (pullSecrets u w ev st) batch)).map mkAddRow := by
    unfold pushSecrets
    rw [takeSecretSnapshotHelper_secretVersions, pushSecretsBody_secretVersions]
  have hnext_eq : (pushSecrets u w ev batch st).nextId =
      st.nextId + (toAdd (pullSecrets u w ev st) batch).length := by
    unfold pushSecrets
    rw [takeSecretSnapshotHelper_nextId, pushSecretsBody_nextId]
  have hKids : (((applyDelete (toDeleteIds (pullSecrets u w ev st) batch)
      st).secrets).map (applyMatching u w (pullSecrets u w ev st)
        (toUpdate (pullSecrets u w ev st) batch))).map (fun s => s.id) =
      ((applyDelete (toDeleteIds (pullSecrets u w ev st) batch) st).secrets).map
        (fun s => s.id) := by
    rw [List.map_map]
    exact List.map_congr_left fun s _ => applyMatching_id _ _ _ _ _
  have hold_mem : ∀ e : PushSecret, ∀ old,
      oldObj (pullSecrets u w ev st) e.hashKey = some old →
      old ∈ st.secrets ∧ old.workspace = w ∧ old.id < st.nextId := by
    intro e old hfind
    obtain ⟨hm, hk⟩ := objLookup_some hfind
    exact ⟨pullSecrets_sub hm, workspace_of_mem_pullSecrets hm,
      hidlt _ (pullSecrets_sub hm)⟩
  refine ⟨⟨?_, ?_, ?_⟩, ?_⟩
  · -- id uniqueness
    rw [hsecrets_eq, List.map_append, hKids, List.nodup_append]
    refine ⟨hst1_nd, hnews_nd, ?_⟩
    intro i hi hj
    obtain ⟨a, ha, hai⟩ := List.mem_map.mp hi
    obtain ⟨b, hb, hbi⟩ := List.mem_map.mp hj
    have h1 : i < st.nextId := hai ▸ hidlt a (hst1_sub a ha)
    have h2 : st.nextId ≤ i := hbi ▸ (hnews_ge b hb).1
    omega
  · -- ids bounded by new nextId
    rw [hsecrets_eq, hnext_eq]
    intro s hs
    rcases List.mem_append.mp hs with hk | hn
    · obtain ⟨s₀, hs₀, rfl⟩ := List.mem_map.mp hk
      rw [applyMatching_id]
      have := hidlt s₀ (hst1_sub s₀ hs₀)
      omega
    · exact (hnews_ge s hn).2
  · -- version rows bounded by new nextId
    rw [hversions_eq, hnext_eq]
    intro r hr
    rcases List.mem_append.mp hr with hr' | hadd
    · rcases List.mem_append.mp hr' with h1 | hupd
      · rw [hst1_rows] at h1
        obtain ⟨r₀, hr₀, rfl⟩ := List.mem_map.mp h1
        have hsec : (if (toDeleteIds (pullSecrets u w ev st) batch).contains
            r₀.secret then ({ r₀ with isDeleted := true } : SecretVersion)
            else r₀).secret = r₀.secret := by
          split <;> rfl
        rw [hsec]
        have := hrowlt r₀ hr₀
        omega
      · obtain ⟨e, he, old, hfind, rfl⟩ := mem_updateRows hupd
        rw [mkUpdateRow_secret]
        have := (hold_mem e old hfind).2.2
        omega
    · obtain ⟨s, hs, rfl⟩ := List.mem_map.mp hadd
      rw [mkAddRow_secret]
      exact (hnews_ge s hs).2
  · -- the ledger invariant itself
    intro s' hs'
    rw [hsecrets_eq] at hs'
    have hrows_split : ∀ i : Nat,
        rowsFor i (pushSecrets u w ev batch st).secretVersions =
          rowsFor i (applyDelete (toDeleteIds (pullSecrets u w ev st) batch)
            st).secretVersions ++
          rowsFor i (updateRows (pullSecrets u w ev st)
            (toUpdate (pullSecrets u w ev st) batch)) ++
          rowsFor i ((mkNewSecrets u w ev st.nextId
            (toAdd (pullSecrets u w ev st) batch)).map mkAddRow) := by
      intro i
      rw [hversions_eq, rowsFor_append, rowsFor_append]
    rcases List.mem_append.mp hs' with hk | hn
    · -- a kept (possibly updated) secret
      obtain ⟨s₀, hs₀, rfl⟩ := List.mem_map.mp hk
      have hs₀st : s₀ ∈ st.secrets := hst1_sub s₀ hs₀
      obtain ⟨hv₀, hrows₀⟩ := hver s₀ hs₀st
      have hrows_flag : ((rowsFor s₀.id (applyDelete
          (toDeleteIds (pullSecrets u w ev st) batch) st).secretVersions).map
            (fun r => r.version)) =
          ((rowsFor s₀.id st.secretVersions).map (fun r => r.version)) := by
        rw [hst1_rows]
        exact rowsFor_map_flag _ _ _
      have hrows_add : rowsFor s₀.id ((mkNewSecrets u w ev st.nextId
          (toAdd (pullSecrets u w ev st) batch)).map mkAddRow) = [] := by
        refine rowsFor_eq_nil ?_
        intro r hr
        obtain ⟨t, ht, rfl⟩ := List.mem_map.mp hr
        rw [mkAddRow_secret]
        have h1 := (hnews_ge t ht).1
        have h2 := hidlt s₀ hs₀st
        omega
      rcases applyMatching_cases s₀ hscope_nd hU_nd with
        ⟨heqF, hnone⟩ | ⟨u₁, e, u₂, hUeq, htar, h1, h2, heqF⟩
      · -- untouched
        rw [heqF]
        have hrows_upd : rowsFor s₀.id (updateRows (pullSecrets u w ev st)
            (toUpdate (pullSecrets u w ev st) batch)) = [] := by
          refine updateRows_nil_of_no_old ?_
          intro e he old hfind hc
          obtain ⟨holdst, hw, -⟩ := hold_mem e old hfind
          have : old = s₀ := List.inj_on_of_nodup_map hnd holdst hs₀st hc
          subst this
          have hcon : targetsB w (pullSecrets u w ev st) e old = true := by
            unfold targetsB
            rw [hfind]
            simp [hw]
          rw [hnone e he] at hcon
          cases hcon
        refine ⟨hv₀, ?_⟩
        rw [hrows_split, List.map_append, List.map_append, hrows_flag,
          hrows_upd, hrows_add, hrows₀]
        simp
      · -- updated by exactly the entry e
        have hekey := htar
        unfold targetsB at hekey
        split at hekey
        case h_2 => cases hekey
        case h_1 old hfind =>
        simp only [Bool.and_eq_true, beq_iff_eq] at hekey
        obtain ⟨hw₀, hid₀⟩ := hekey
        obtain ⟨holdst, hwold, -⟩ := hold_mem e old hfind
        have holdeq : old = s₀ :=
          List.inj_on_of_nodup_map hnd holdst hs₀st (by rw [← hid₀])
        subst holdeq
        have hno_old : ∀ (xs : List PushSecret),
            (∀ x ∈ xs, targetsB w (pullSecrets u w ev st) x old = false) →
            ∀ x ∈ xs, ∀ o, oldObj (pullSecrets u w ev st) x.hashKey = some o →
              o.id ≠ old.id := by
          intro xs hxs x hx o hfo hc
          obtain ⟨host, -, -⟩ := hold_mem x o hfo
          have hoeq : o = old := List.inj_on_of_nodup_map hnd host holdst hc
          subst hoeq
          have hcon : targetsB w (pullSecrets u w ev st) x o = true := by
            unfold targetsB
            rw [hfo]
            simp [hw₀]
          rw [hxs x hx] at hcon
          cases hcon
        have hsingle : rowsFor old.id (updateRows (pullSecrets u w ev st)
            (toUpdate (pullSecrets u w ev st) batch)) = [mkUpdateRow e old] := by
          rw [hUeq]
          exact rowsFor_updateRows_single hfind (hno_old u₁ h1) (hno_old u₂ h2)
        rw [heqF]
        refine ⟨by rw [applySecretUpdate_version]; omega, ?_⟩
        rw [applySecretUpdate_id, applySecretUpdate_version, hrows_split,
          List.map_append, List.map_append, hrows_flag, hrows₀, hrows_add,
          hsingle, List.map_cons, List.map_nil, mkUpdateRow_version]
        rw [List.append_nil, range'_one_concat]
    · -- a freshly inserted secret
      obtain ⟨a, ha, k, hk, rfl⟩ := mem_mkNewSecrets hn
      refine ⟨by rw [mkNewSecret_version], ?_⟩
      rw [mkNewSecret_version, mkNewSecret_id, hrows_split]
      have hflag : rowsFor (st.nextId + k) (applyDelete
          (toDeleteIds (pullSecrets u w ev st) batch) st).secretVersions = [] := by
        rw [hst1_rows]
        refine rowsFor_eq_nil ?_
        intro r hr
        obtain ⟨r₀, hr₀, rfl⟩ := List.mem_map.mp hr
        have hsec : (if (toDeleteIds (pullSecrets u w ev st) batch).contains
            r₀.secret then ({ r₀ with isDeleted := true } : SecretVersion)
            else r₀).secret = r₀.secret := by
          split <;> rfl
        rw [hsec]
        have := hrowlt r₀ hr₀
        omega
      have hupd : rowsFor (st.nextId + k) (updateRows (pullSecrets u w ev st)
          (toUpdate (pullSecrets u w ev st) batch)) = [] := by
        refine updateRows_nil_of_no_old ?_
        intro e he old hfind hc
        have := (hold_mem e old hfind).2.2
        omega
      have hadd : rowsFor (st.nextId + k) ((mkNewSecrets u w ev st.nextId
          (toAdd (pullSecrets u w ev st) batch)).map mkAddRow) =
          [mkAddRow (mkNewSecret u w ev (st.nextId + k) a)] := by
        have hmem' : mkNewSecret u w ev (st.nextId + k) a ∈
            mkNewSecrets u w ev st.nextId
              (toAdd (pullSecrets u w ev st) batch) := hn
        have := rowsFor_addRows hnews_nd hmem'
        rw [mkNewSecret_id] at this
        exact this
      rw [hflag, hupd, hadd]
      rfl

/-! ## Field preservation and push-level shape lemmas -/

theorem beq_shared_personal :
    (SecretType.shared == SecretType.personal) = false := rfl

theorem beq_personal_shared :
    (SecretType.personal == SecretType.shared) = false := rfl

theorem beq_shared_shared :
    (SecretType.shared == SecretType.shared) = true := rfl

theorem beq_personal_personal :
    (SecretType.personal == SecretType.personal) = true := rfl

theorem updStep_environment (u w : String) (scope : List Secret) (s : Secret)
    (e : PushSecret) : (updStep u w scope s e).environment = s.environment := by
  unfold updStep
  split
  · split <;> rfl
  · rfl

theorem updStep_type (u w : String) (scope : List Secret) (s : Secret)
    (e : PushSecret) : (updStep u w scope s e).type = s.type := by
  unfold updStep
  split
  · split <;> rfl
  · rfl

theorem updStep_keyHash (u w : String) (scope : List Secret) (s : Secret)
    (e : PushSecret) : (updStep u w scope s e).secretKeyHash = s.secretKeyHash := by
  unfold updStep
  split
  · split <;> rfl
  · rfl

theorem applyMatching_environment (u w : String) (scope : List Secret)
    (upds : List PushSecret) (s : Secret) :
    (applyMatching u w scope upds s).environment = s.environment := by
  induction upds generalizing s with
  | nil => rfl
  | cons e rest ih =>
    rw [applyMatching_cons, ih, updStep_environment]

theorem applyMatching_type (u w : String) (scope : List Secret)
    (upds : List PushSecret) (s : Secret) :
    (applyMatching u w scope upds s).type = s.type := by
  induction upds generalizing s with
  | nil => rfl
  | cons e rest ih =>
    rw [applyMatching_cons, ih, updStep_type]

theorem applyMatching_keyHash (u w : String) (scope : List Secret)
    (upds : List PushSecret) (s : Secret) :
    (applyMatching u w scope upds s).secretKeyHash = s.secretKeyHash := by
  induction upds generalizing s with
  | nil => rfl
  | cons e rest ih =>
    rw [applyMatching_cons, ih, updStep_keyHash]

theorem mkNewSecrets_map_keyHash (u w ev : String) (n : Nat)
    (adds : List PushSecret) :
    (mkNewSecrets u w ev n adds).map (fun s => s.secretKeyHash) =
      adds.map (fun e => e.hashKey) := by
  induction adds generalizing n with
  | nil => rfl
  | cons a rest ih =>
    simp only [mkNewSecrets, List.map_cons, ih]
    rfl

theorem mem_pullSecrets_preds {u w ev : String} {st : Store} {s : Secret} :
    s ∈ pullSecrets u w ev st ↔
      s ∈ st.secrets ∧ (personalPredB u w ev s = true ∨ sharedPredB w ev s = true) := by
  simp only [pullSecrets, List.mem_append, List.mem_filter]
  tauto

theorem pushSecrets_secrets_eq (u w ev : String) (batch : List PushSecret)
    (st : Store) (hnd : (st.secrets.map (fun s => s.id)).Nodup) :
    (pushSecrets u w ev batch st).secrets =
      ((applyDelete (toDeleteIds (pullSecrets u w ev st) batch) st).secrets).map
        (applyMatching u w (pullSecrets u w ev st)
          (toUpdate (pullSecrets u w ev st) batch)) ++
      mkNewSecrets u w ev st.nextId (toAdd (pullSecrets u w ev st) batch) := by
  unfold pushSecrets
  rw [takeSecretSnapshotHelper_secrets, pushSecretsBody_secrets,
    applyUpdates_eq_map (by
      rw [applyDelete_secrets]
      exact ((List.filter_sublist _).map _).nodup hnd)]

theorem pushSecrets_secretSnapshots_eq (u w ev : String)
    (batch : List PushSecret) (st : Store) :
    (pushSecrets u w ev batch st).secretSnapshots =
      st.secretSnapshots ++
        [{ workspace := w
           version :=
             match maxSnapshotVersion
               (snapshotsFor w (pushSecretsBody u w ev batch st)) with
             | none => 1
             | some m => m + 1
           secrets := (pushSecretsBody u w ev batch st).secrets.filter
             fun s => s.workspace == w }] := by
  unfold pushSecrets takeSecretSnapshotHelper
  rw [pushSecretsBody_secretSnapshots]

theorem mem_applyDelete_of {u w ev : String} {batch : List PushSecret}
    {st : Store} (hnd : (st.secrets.map (fun s => s.id)).Nodup) {s : Secret}
    (hs : s ∈ st.secrets)
    (hhash : batch.any (fun x => x.hashKey == s.secretKeyHash) = true) :
    s ∈ (applyDelete (toDeleteIds (pullSecrets u w ev st) batch) st).secrets := by
  rw [applyDelete_secrets, List.mem_filter]
  refine ⟨hs, ?_⟩
  simp only [Bool.not_eq_true', ← Bool.not_eq_true]
  intro hcontains
  have hid : s.id ∈ toDeleteIds (pullSecrets u w ev st) batch := by
    simpa [List.elem_iff] using hcontains
  obtain ⟨d, hd, hdid⟩ := List.mem_map.mp hid
  have hdst : d ∈ st.secrets := pullSecrets_sub (List.mem_of_mem_filter hd)
  have hds : d = s := List.inj_on_of_nodup_map hnd hdst hs hdid
  subst hds
  obtain ⟨x, hx, hk⟩ := List.any_eq_true.mp hhash
  exact ((mem_toDeleteRecords.mp hd).2 x hx) (by simpa using hk)

/-- The two pull predicates are invariant under the bulk update: the
update rewrites only value material and version, and it stamps the
`user` field only on documents that were already the caller's own
personal secrets in the scope. -/
theorem pull_preds_applyMatching {u w ev : String} {batch : List PushSecret}
    {st : Store} (hnd : (st.secrets.map (fun s => s.id)).Nodup)
    (hB : (batch.map (fun e => e.hashKey)).Nodup)
    {s : Secret} (hmem : s ∈ st.secrets) :
    personalPredB u w ev (applyMatching u w (pullSecrets u w ev st)
      (toUpdate (pullSecrets u w ev st) batch) s) = personalPredB u w ev s ∧
    sharedPredB w ev (applyMatching u w (pullSecrets u w ev st)
      (toUpdate (pullSecrets u w ev st) batch) s) = sharedPredB w ev s := by
  have hU_nd : ((toUpdate (pullSecrets u w ev st) batch).map
      (fun e => e.hashKey)).Nodup :=
    ((List.filter_sublist batch).map _).nodup hB
  rcases applyMatching_cases s (pullSecrets_id_nodup hnd) hU_nd with
    ⟨heqF, -⟩ | ⟨u₁, e, u₂, -, htar, -, -, heqF⟩
  · rw [heqF]
    exact ⟨rfl, rfl⟩
  · have hstar := htar
    unfold targetsB at hstar
    split at hstar
    case h_2 => cases hstar
    case h_1 old hfind =>
    simp only [Bool.and_eq_true, beq_iff_eq] at hstar
    obtain ⟨hws, hid⟩ := hstar
    obtain ⟨hom, hok⟩ := objLookup_some hfind
    have holds : old = s := List.inj_on_of_nodup_map hnd
      (pullSecrets_sub hom) hmem (by rw [← hid])
    subst holds
    rw [heqF]
    cases hst : old.type with
    | shared =>
      constructor
      · simp [personalPredB, applySecretUpdate, hst, beq_shared_personal]
      · simp [sharedPredB, applySecretUpdate, hst, beq_shared_shared]
    | personal =>
      have hp := (mem_pullSecrets_preds.mp hom).2
      have huser : old.user = some u := by
        rcases hp with h | h
        · simp only [personalPredB, Bool.and_eq_true, beq_iff_eq] at h
          exact h.2
        · simp only [sharedPredB, Bool.and_eq_true, beq_iff_eq] at h
          rw [hst] at h
          cases h.2
      constructor
      · simp only [personalPredB, applySecretUpdate, hst, beq_personal_personal]
        cases e.type <;> simp [huser, hst]
      · simp [sharedPredB, applySecretUpdate, hst, beq_personal_shared]

/-! ## The scope after a push -/

/-- Every secret visible in the pushed scope after a push agrees with a
batch entry of the same key-hash on value-hash and type (provided the
stored scope had unique key-hashes, the batch had unique key-hashes, and
no batch entry changed the type of a stored secret). -/
theorem push_scope_forward (u w ev : String) (batch : List PushSecret)
    (st : Store) (hnd : (st.secrets.map (fun s => s.id)).Nodup)
    (hscopeH : ((pullSecrets u w ev st).map (fun s => s.secretKeyHash)).Nodup)
    (hB : (batch.map (fun e => e.hashKey)).Nodup)
    (htype : ∀ e ∈ batch, ∀ s ∈ pullSecrets u w ev st,
      s.secretKeyHash = e.hashKey → s.type = e.type) :
    ∀ s1 ∈ pullSecrets u w ev (pushSecrets u w ev batch st),
      ∃ e ∈ batch, e.hashKey = s1.secretKeyHash ∧
        e.hashValue = s1.secretValueHash ∧ e.type = s1.type := by
  intro s1 hs1
  have hU_nd : ((toUpdate (pullSecrets u w ev st) batch).map
      (fun x => x.hashKey)).Nodup :=
    ((List.filter_sublist batch).map _).nodup hB
  have hmemS : s1 ∈ (pushSecrets u w ev batch st).secrets := pullSecrets_sub hs1
  rw [pushSecrets_secrets_eq u w ev batch st hnd] at hmemS
  rcases List.mem_append.mp hmemS with hk | hn
  · obtain ⟨s₀, hs₀, heqs1⟩ := List.mem_map.mp hk
    have hs₀st : s₀ ∈ st.secrets := by
      rw [applyDelete_secrets] at hs₀
      exact (List.mem_filter.mp hs₀).1
    have hs₀' := hs₀
    rw [applyDelete_secrets, List.mem_filter] at hs₀'
    obtain ⟨-, hnotdel⟩ := hs₀'
    rcases applyMatching_cases s₀ (pullSecrets_id_nodup hnd) hU_nd with
      ⟨heqF, hnone⟩ | ⟨u₁, e, u₂, hUeq, htar, -, -, heqF⟩
    · -- untouched document
      rw [heqF] at heqs1
      subst heqs1
      have hs₀scope : s₀ ∈ pullSecrets u w ev st := by
        rw [mem_pullSecrets_preds]
        exact ⟨hs₀st, (mem_pullSecrets_preds.mp hs1).2⟩
      have hany : batch.any (fun e => e.hashKey == s₀.secretKeyHash) = true := by
        by_contra hc
        have hall : ∀ e ∈ batch, e.hashKey ≠ s₀.secretKeyHash := by
          intro e he hk
          exact hc (List.any_eq_true.mpr ⟨e, he, by simp [hk]⟩)
        have hrec : s₀ ∈ toDeleteRecords (pullSecrets u w ev st) batch :=
          mem_toDeleteRecords.mpr ⟨hs₀scope, hall⟩
        have hid : s₀.id ∈ toDeleteIds (pullSecrets u w ev st) batch :=
          List.mem_map_of_mem _ hrec
        have : (toDeleteIds (pullSecrets u w ev st) batch).contains s₀.id
            = true := by
          simpa [List.elem_iff] using hid
        rw [this] at hnotdel
        cases hnotdel
      obtain ⟨e, he, hkb⟩ := List.any_eq_true.mp hany
      have hkey : e.hashKey = s₀.secretKeyHash := by simpa using hkb
      have hfind : oldObj (pullSecrets u w ev st) e.hashKey = some s₀ := by
        have := objLookup_of_nodup hscopeH hs₀scope
        rw [hkey]
        exact this
      have hnotU : e ∉ toUpdate (pullSecrets u w ev st) batch := by
        intro heU
        have hcon : targetsB w (pullSecrets u w ev st) e s₀ = true := by
          unfold targetsB
          rw [hfind]
          simp [workspace_of_mem_pullSecrets hs₀scope]
        rw [hnone e heU] at hcon
        cases hcon
      have hpred : ¬ (e.hashValue ≠ s₀.secretValueHash ∨ e.type ≠ s₀.type) := by
        intro hdiff
        exact hnotU (mem_toUpdate_lookup.mpr ⟨he, s₀, hfind, hdiff⟩)
      push_neg at hpred
      exact ⟨e, he, hkey, hpred.1, hpred.2⟩
    · -- updated document
      have hstar := htar
      unfold targetsB at hstar
      split at hstar
      case h_2 => cases hstar
      case h_1 old hfind =>
      simp only [Bool.and_eq_true, beq_iff_eq] at hstar
      obtain ⟨hws, hid⟩ := hstar
      obtain ⟨hom, hok⟩ := objLookup_some hfind
      have holdeq : old = s₀ := List.inj_on_of_nodup_map hnd
        (pullSecrets_sub hom) hs₀st (by rw [← hid])
      subst holdeq
      rw [heqF] at heqs1
      subst heqs1
      have heU : e ∈ toUpdate (pullSecrets u w ev st) batch := by
        rw [hUeq]
        exact List.mem_append_right _ (List.mem_cons_self _ _)
      have heb : e ∈ batch := List.mem_of_mem_filter heU
      exact ⟨e, heb, hok.symm, rfl, (htype e heb old hom hok).symm⟩
  · obtain ⟨a, ha, k, hklt, heq⟩ := mem_mkNewSecrets hn
    have hab : a ∈ batch := List.mem_of_mem_filter ha
    subst heq
    exact ⟨a, hab, rfl, rfl, rfl⟩

/-- Every batch entry's key-hash is visible in the pushed scope after
the push: either its stored counterpart survived (possibly updated), or
it was freshly inserted. -/
theorem push_scope_backward (u w ev : String) (batch : List PushSecret)
    (st : Store) (hnd : (st.secrets.map (fun s => s.id)).Nodup)
    (hB : (batch.map (fun e => e.hashKey)).Nodup) :
    ∀ e ∈ batch, ∃ s1 ∈ pullSecrets u w ev (pushSecrets u w ev batch st),
      s1.secretKeyHash = e.hashKey := by
  intro e he
  cases hfind : oldObj (pullSecrets u w ev st) e.hashKey with
  | some old =>
    obtain ⟨hom, hok⟩ := objLookup_some hfind
    have holdst : old ∈ st.secrets := pullSecrets_sub hom
    have hkeep : old ∈ (applyDelete (toDeleteIds (pullSecrets u w ev st) batch)
        st).secrets :=
      mem_applyDelete_of hnd holdst (List.any_eq_true.mpr ⟨e, he, by simp [hok]⟩)
    refine ⟨applyMatching u w (pullSecrets u w ev st)
      (toUpdate (pullSecrets u w ev st) batch) old, ?_, ?_⟩
    · rw [mem_pullSecrets_preds]
      constructor
      · rw [pushSecrets_secrets_eq u w ev batch st hnd]
        exact List.mem_append_left _ (List.mem_map_of_mem _ hkeep)
      · obtain ⟨hp1, hp2⟩ := pull_preds_applyMatching hnd hB holdst
        rcases (mem_pullSecrets_preds.mp hom).2 with h | h
        · exact Or.inl (by rw [hp1, h])
        · exact Or.inr (by rw [hp2, h])
    · rw [applyMatching_keyHash, hok]
  | none =>
    have hA : e ∈ toAdd (pullSecrets u w ev st) batch :=
      List.mem_filter.mpr ⟨he, by simp [hfind]⟩
    obtain ⟨s, hsmem, k, heq⟩ := mkNewSecrets_mem_of u w ev st.nextId hA
    refine ⟨s, ?_, by rw [heq]; rfl⟩
    rw [mem_pullSecrets_preds]
    constructor
    · rw [pushSecrets_secrets_eq u w ev batch st hnd]
      exact List.mem_append_right _ hsmem
    · subst heq
      cases hty : e.type with
      | shared =>
        exact Or.inr (by simp [sharedPredB, mkNewSecret, hty, beq_shared_shared])
      | personal =>
        exact Or.inl (by
          simp [personalPredB, mkNewSecret, hty, beq_personal_personal])

/-- Hash lists after filtering the updated kept documents: filtering the
mapped collection by a bulk-update-invariant predicate and taking key
hashes is the same as filtering the original collection (the update
preserves key hashes). -/
theorem filter_map_applyMatching_hashes (u w ev : String)
    (batch : List PushSecret) (st : Store) (p : Secret → Bool)
    (hp : ∀ s ∈ st.secrets, p (applyMatching u w (pullSecrets u w ev st)
      (toUpdate (pullSecrets u w ev st) batch) s) = p s) :
    ((List.filter p (((applyDelete (toDeleteIds (pullSecrets u w ev st) batch)
        st).secrets).map
        (applyMatching u w (pullSecrets u w ev st)
          (toUpdate (pullSecrets u w ev st) batch)))).map
      (fun s => s.secretKeyHash)) =
    ((List.filter
        (fun s => !((toDeleteIds (pullSecrets u w ev st) batch).contains s.id))
        (List.filter p st.secrets)).map (fun s => s.secretKeyHash)) := by
  rw [List.filter_map, List.map_map]
  have h1 : List.filter (p ∘ applyMatching u w (pullSecrets u w ev st)
        (toUpdate (pullSecrets u w ev st) batch))
        (applyDelete (toDeleteIds (pullSecrets u w ev st) batch) st).secrets
      = List.filter p
        (applyDelete (toDeleteIds (pullSecrets u w ev st) batch) st).secrets := by
    refine List.filter_congr ?_
    intro s hs
    have hsst : s ∈ st.secrets := by
      rw [applyDelete_secrets] at hs
      exact (List.mem_filter.mp hs).1
    simpa [Function.comp] using hp s hsst
  rw [h1]
  have h2 : List.filter p
        (applyDelete (toDeleteIds (pullSecrets u w ev st) batch) st).secrets
      = List.filter
        (fun s => !((toDeleteIds (pullSecrets u w ev st) batch).contains s.id))
        (List.filter p st.secrets) := by
    rw [applyDelete_secrets, List.filter_filter, List.filter_filter]
    exact List.filter_congr fun s _ => Bool.and_comm _ _
  rw [h2]
  exact List.map_congr_left fun s _ => applyMatching_keyHash _ _ _ _ _

/-! ## Claim C1: push classification partitions by key-hash -/

/-- Claim C1: for every incoming batch and stored scope (whose key
hashes are unique, the stored-state invariant), the push classification
partitions by key-hash: `toDeleteRecords` is exactly the stored records
whose key-hash is absent from the batch; `toUpdate` exactly the incoming
entries whose key-hash is stored with a differing value-hash or type;
`toAdd` exactly the incoming entries whose key-hash is not stored;
unchanged entries fall in no category; no key-hash occurs in two
categories; and the three incoming-sided classes cover the batch. -/
theorem claim_C1_push_classification (scope : List Secret) (batch : List PushSecret)
    (hS : (scope.map (fun s => s.secretKeyHash)).Nodup) :
    (∀ s, s ∈ toDeleteRecords scope batch ↔
        s ∈ scope ∧ ∀ e ∈ batch, e.hashKey ≠ s.secretKeyHash) ∧
    (∀ e, e ∈ toUpdate scope batch ↔
        e ∈ batch ∧ ∃ s ∈ scope, s.secretKeyHash = e.hashKey ∧
          (e.hashValue ≠ s.secretValueHash ∨ e.type ≠ s.type)) ∧
    (∀ e, e ∈ toAdd scope batch ↔
        e ∈ batch ∧ ∀ s ∈ scope, s.secretKeyHash ≠ e.hashKey) ∧
    (∀ e ∈ batch, ∀ s ∈ scope, s.secretKeyHash = e.hashKey →
        e.hashValue = s.secretValueHash → e.type = s.type →
        e ∉ toUpdate scope batch ∧ e ∉ toAdd scope batch ∧
          s ∉ toDeleteRecords scope batch) ∧
    (∀ e ∈ toUpdate scope batch, ∀ s ∈ toDeleteRecords scope batch,
        e.hashKey ≠ s.secretKeyHash) ∧
    (∀ e ∈ toAdd scope batch, ∀ s ∈ toDeleteRecords scope batch,
        e.hashKey ≠ s.secretKeyHash) ∧
    (∀ e ∈ toUpdate scope batch, ∀ a ∈ toAdd scope batch,
        e.hashKey ≠ a.hashKey) ∧
    (∀ e ∈ batch, e ∈ toAdd scope batch ∨ e ∈ toUpdate scope batch ∨
        ∃ s ∈ scope, s.secretKeyHash = e.hashKey ∧
          e.hashValue = s.secretValueHash ∧ e.type = s.type) := by
  refine ⟨fun s => mem_toDeleteRecords, fun e => mem_toUpdate hS,
    fun e => mem_toAdd, ?_, ?_, ?_, ?_, ?_⟩
  · intro e he s hs hkey hval htype
    refine ⟨?_, ?_, ?_⟩
    · intro hu
      obtain ⟨-, t, htmem, htkey, hdiff⟩ := (mem_toUpdate hS).mp hu
      have : t = s := List.inj_on_of_nodup_map hS htmem hs (by rw [htkey, hkey])
      subst this
      rcases hdiff with h | h
      · exact h hval
      · exact h htype
    · intro ha
      exact ((mem_toAdd.mp ha).2 s hs) hkey
    · intro hd
      exact ((mem_toDeleteRecords.mp hd).2 e he) hkey.symm
  · intro e hu s hd hk
    obtain ⟨hemem, -⟩ := mem_toUpdate_lookup.mp hu
    exact ((mem_toDeleteRecords.mp hd).2 e hemem) hk
  · intro e ha s hd hk
    obtain ⟨hemem, -⟩ := mem_toAdd.mp ha
    exact ((mem_toDeleteRecords.mp hd).2 e hemem) hk
  · intro e hu a ha hk
    obtain ⟨-, old, hfind, -⟩ := mem_toUpdate_lookup.mp hu
    obtain ⟨hom, hok⟩ := objLookup_some hfind
    exact ((mem_toAdd.mp ha).2 old hom) (by rw [hok, hk])
  · intro e he
    cases hfind : oldObj scope e.hashKey with
    | none =>
      exact Or.inl (List.mem_filter.mpr ⟨he, by simp [hfind]⟩)
    | some old =>
      obtain ⟨hom, hok⟩ := objLookup_some hfind
      by_cases hdiff : e.hashValue = old.secretValueHash ∧ e.type = old.type
      · exact Or.inr (Or.inr ⟨old, hom, hok, hdiff.1, hdiff.2⟩)
      · refine Or.inr (Or.inl (mem_toUpdate_lookup.mpr ⟨he, old, hfind, ?_⟩))
        tauto

/-- Witness for C1 at a concrete scope and batch: one stored secret
whose value-hash changed, one unchanged, one deleted, one added. -/
theorem claim_C1_push_classification_witness :
    (((["k1", "k2", "k3"].map (fun k =>
        mkNewSecret "u" "w" "e" 0 (mkEntry k "v" SecretType.shared))).map
          (fun s => s.secretKeyHash)).Nodup) ∧
    (∀ s, s ∈ toDeleteRecords
        (["k1", "k2", "k3"].map (fun k =>
          mkNewSecret "u" "w" "e" 0 (mkEntry k "v" SecretType.shared)))
        [mkEntry "k1" "v" SecretType.shared, mkEntry "k2" "w2" SecretType.shared,
          mkEntry "k4" "v" SecretType.shared] ↔
      s ∈ (["k1", "k2", "k3"].map (fun k =>
          mkNewSecret "u" "w" "e" 0 (mkEntry k "v" SecretType.shared))) ∧
        ∀ e ∈ [mkEntry "k1" "v" SecretType.shared, mkEntry "k2" "w2" SecretType.shared,
          mkEntry "k4" "v" SecretType.shared], e.hashKey ≠ s.secretKeyHash) := by
  have h := claim_C1_push_classification
    (["k1", "k2", "k3"].map (fun k =>
      mkNewSecret "u" "w" "e" 0 (mkEntry k "v" SecretType.shared)))
    [mkEntry "k1" "v" SecretType.shared, mkEntry "k2" "w2" SecretType.shared,
      mkEntry "k4" "v" SecretType.shared]
    (by decide)
  exact ⟨by decide, h.1⟩

/-! ## Claim C8: pull returns personal-owned then shared -/

/-- Claim C8: `pullSecrets` returns exactly the personal secrets owned
by the user for the scope together with the scope's shared secrets, and
the returned sequence is a block of personal-owned entries followed by a
block of shared entries. -/
theorem claim_C8_pull_order (u w e : String) (st : Store) :
    (∀ s, s ∈ pullSecrets u w e st ↔
        s ∈ st.secrets ∧ s.workspace = w ∧ s.environment = e ∧
          (s.type = SecretType.shared ∨
            (s.type = SecretType.personal ∧ s.user = some u))) ∧
    (∃ p q, pullSecrets u w e st = p ++ q ∧
      (∀ s ∈ p, s.type = SecretType.personal ∧ s.user = some u ∧
        s.workspace = w ∧ s.environment = e) ∧
      (∀ s ∈ q, s.type = SecretType.shared ∧ s.workspace = w ∧
        s.environment = e)) := by
  constructor
  · intro s
    rw [mem_pullSecrets]
    simp only [inScopeB, Bool.and_eq_true, Bool.or_eq_true, beq_iff_eq]
    tauto
  · refine ⟨_, _, rfl, ?_, ?_⟩
    · intro s hs
      simp only [List.mem_filter, personalPredB, Bool.and_eq_true,
        beq_iff_eq] at hs
      tauto
    · intro s hs
      simp only [List.mem_filter, sharedPredB, Bool.and_eq_true,
        beq_iff_eq] at hs
      tauto

/-! ## Claim C7: snapshot failure during a push -/

/-- Counterexample to claim C7 as stated: when the snapshot step fails,
the error surfaced to the push caller is the generic push error
`'Failed to push shared and personal secrets'`, not the distinct
snapshot error `'Failed to take a secret snapshot'` — the push-level
catch block swallows and rewraps the snapshot error. -/
theorem claim_C7_counterexample :
    pushSecretsE true "u" "w" "e" [] emptyStore =
      Except.error "Failed to push shared and personal secrets" ∧
    "Failed to push shared and personal secrets" ≠
      "Failed to take a secret snapshot" := by
  exact ⟨rfl, by decide⟩

/-- Claim C7 amended: a snapshot read/write failure raises the distinct
snapshot error at the `takeSecretSnapshotHelper` boundary, and it still
aborts the whole push (no push succeeds without a successful snapshot),
but the error surfaced to the push caller is the generic push
reconciliation-failure error, into which the snapshot error is
rewrapped. -/
theorem claim_C7_snapshot_failure_aborts_push (u w e : String)
    (batch : List PushSecret) (st : Store) :
    takeSecretSnapshotHelperE true w st =
      Except.error "Failed to take a secret snapshot" ∧
    pushSecretsE true u w e batch st =
      Except.error "Failed to push shared and personal secrets" :=
  ⟨rfl, rfl⟩

/-! ## Claim C9: text format of decryptSecrets -/

/-- Claim C9 is wrong about the code: the `idx < secrets.length` guard
of the `text` branch holds at every index, the last included, so every
`key=value` line — also the final one — is followed by a newline.  On a
single-entry list (decrypting with a primitive that returns the
ciphertext itself) the output is `"K=V\n"`, not the newline-join
`"K=V"`; on a two-entry list it is `"K1=V1\nK2=V2\n"`. -/
theorem claim_C9_trailing_newline :
    decryptSecretsText (fun c _ _ _ => c)
      [{ ciphertextKey := "K", ivKey := "i", tagKey := "t", hashKey := "hk",
         ciphertextValue := "V", ivValue := "i", tagValue := "t", hashValue := "hv",
         type := SecretType.shared }] "key" = "K=V\n" ∧
    decryptSecretsText (fun c _ _ _ => c)
      [{ ciphertextKey := "K1", ivKey := "i", tagKey := "t", hashKey := "h1",
         ciphertextValue := "V1", ivValue := "i", tagValue := "t", hashValue := "w1",
         type := SecretType.shared },
       { ciphertextKey := "K2", ivKey := "i", tagKey := "t", hashKey := "h2",
         ciphertextValue := "V2", ivValue := "i", tagValue := "t", hashValue := "w2",
         type := SecretType.shared }] "key" = "K1=V1\nK2=V2\n" ∧
    ("K=V\n" ≠ "K=V" ∧ "K1=V1\nK2=V2\n" ≠ "K1=V1\nK2=V2") := by
  refine ⟨rfl, rfl, by decide⟩

/-! ## Claim C4: snapshot capture and version monotonicity -/

/-- Claim C4: `takeSecretSnapshotHelper` appends exactly one new
snapshot whose workspace is the given one, whose embedded secret list is
the workspace's entire current `Secret` content (all environments), and
whose version is 1 when the workspace has no snapshot and the highest
existing snapshot version plus one otherwise; consequently, along any
single-writer push sequence starting with no snapshots for the
workspace, the workspace's snapshot versions are exactly `1, 2, 3, …`,
one per push to that workspace. -/
theorem claim_C4_snapshot_monotonicity :
    (∀ w : String, ∀ st : Store, ∃ snap : SecretSnapshot,
      (takeSecretSnapshotHelper w st).secretSnapshots =
        st.secretSnapshots ++ [snap] ∧
      snap.workspace = w ∧
      snap.secrets = st.secrets.filter (fun s => s.workspace == w) ∧
      ((snapshotsFor w st = [] ∧ snap.version = 1) ∨
        (∃ m, (∃ sn ∈ snapshotsFor w st, sn.version = m) ∧
          (∀ sn ∈ snapshotsFor w st, sn.version ≤ m) ∧
          snap.version = m + 1))) ∧
    (∀ w : String, ∀ evs : List PushEvent, ∀ st : Store,
      snapshotsFor w st = [] →
      ((snapshotsFor w (pushList evs st)).map fun sn => sn.version) =
        List.range' 1 (evs.countP fun ev => ev.workspaceId == w)) := by
  constructor
  · intro w st
    refine ⟨_, rfl, rfl, rfl, ?_⟩
    cases hmax : maxSnapshotVersion (snapshotsFor w st) with
    | none =>
      exact Or.inl ⟨maxSnapshotVersion_eq_none.mp hmax, rfl⟩
    | some m =>
      obtain ⟨hmem, hall⟩ := maxSnapshotVersion_spec hmax
      exact Or.inr ⟨m, hmem, hall, rfl⟩
  · intro w evs st h0
    have := pushList_snapshot_versions w evs st 0 (by simp [h0])
    simpa using this

/-- Witness for C4: two pushes to workspace `w` from an empty store
produce snapshot versions `[1, 2]`. -/
theorem claim_C4_snapshot_monotonicity_witness :
    (snapshotsFor "w" emptyStore = []) ∧
    ((snapshotsFor "w" (pushList
        [{ userId := "u", workspaceId := "w", environment := "e",
           batch := [mkEntry "k" "v" SecretType.shared] },
         { userId := "u", workspaceId := "w", environment := "e", batch := [] }]
        emptyStore)).map fun sn => sn.version) =
      List.range' 1
        (([{ userId := "u", workspaceId := "w", environment := "e",
             batch := [mkEntry "k" "v" SecretType.shared] },
           { userId := "u", workspaceId := "w", environment := "e",
             batch := [] }] : List PushEvent).countP
          fun ev => ev.workspaceId == "w") :=
  ⟨by decide, claim_C4_snapshot_monotonicity.2 "w" _ emptyStore (by decide)⟩

/-! ## Claim C5: the delete step -/

/-- Claim C5: applying `toDelete` removes exactly the classified
`Secret` rows (no tombstone row remains), rewrites the `SecretVersion`
collection by flagging `isDeleted := true` on precisely the rows whose
`secret` reference is a classified id — removing no row, adding no row,
and altering no other field of any row. -/
theorem claim_C5_delete_step (u w ev : String) (batch : List PushSecret)
    (st : Store) (hnd : (st.secrets.map (fun s => s.id)).Nodup) :
    (∀ s, s ∈ (applyDelete (toDeleteIds (pullSecrets u w ev st) batch) st).secrets ↔
        (s ∈ st.secrets ∧ s ∉ toDeleteRecords (pullSecrets u w ev st) batch)) ∧
    ((applyDelete (toDeleteIds (pullSecrets u w ev st) batch) st).secretVersions =
      st.secretVersions.map fun r =>
        if (toDeleteIds (pullSecrets u w ev st) batch).contains r.secret then
          { r with isDeleted := true }
        else r) ∧
    (∀ r : SecretVersion,
      ((toDeleteIds (pullSecrets u w ev st) batch).contains r.secret = true ↔
        ∃ d ∈ toDeleteRecords (pullSecrets u w ev st) batch, d.id = r.secret) ∧
      ((if (toDeleteIds (pullSecrets u w ev st) batch).contains r.secret then
          ({ r with isDeleted := true } : SecretVersion)
        else r).secret = r.secret ∧
       (if (toDeleteIds (pullSecrets u w ev st) batch).contains r.secret then
          ({ r with isDeleted := true } : SecretVersion)
        else r).version = r.version ∧
       (if (toDeleteIds (pullSecrets u w ev st) batch).contains r.secret then
          ({ r with isDeleted := true } : SecretVersion)
        else r).secretKeyCiphertext = r.secretKeyCiphertext ∧
       (if (toDeleteIds (pullSecrets u w ev st) batch).contains r.secret then
          ({ r with isDeleted := true } : SecretVersion)
        else r).secretKeyHash = r.secretKeyHash ∧
       (if (toDeleteIds (pullSecrets u w ev st) batch).contains r.secret then
          ({ r with isDeleted := true } : SecretVersion)
        else r).secretValueCiphertext = r.secretValueCiphertext ∧
       (if (toDeleteIds (pullSecrets u w ev st) batch).contains r.secret then
          ({ r with isDeleted := true } : SecretVersion)
        else r).secretValueHash = r.secretValueHash ∧
       (if (toDeleteIds (pullSecrets u w ev st) batch).contains r.secret then
          ({ r with isDeleted := true } : SecretVersion)
        else r).isDeleted =
          ((toDeleteIds (pullSecrets u w ev st) batch).contains r.secret ||
            r.isDeleted))) := by
  refine ⟨?_, applyDelete_secretVersions _ _, ?_⟩
  · intro s
    rw [applyDelete_secrets, List.mem_filter]
    constructor
    · rintro ⟨hmem, hpred⟩
      refine ⟨hmem, ?_⟩
      intro hrec
      have : s.id ∈ toDeleteIds (pullSecrets u w ev st) batch :=
        List.mem_map_of_mem _ hrec
      simp only [Bool.not_eq_true', ← Bool.not_eq_true] at hpred
      exact hpred (by simpa [List.elem_iff] using this)
    · rintro ⟨hmem, hrec⟩
      refine ⟨hmem, ?_⟩
      simp only [Bool.not_eq_true', ← Bool.not_eq_true]
      intro hcontains
      have hid : s.id ∈ toDeleteIds (pullSecrets u w ev st) batch := by
        simpa [List.elem_iff] using hcontains
      obtain ⟨d, hd, hdid⟩ := List.mem_map.mp hid
      have hdst : d ∈ st.secrets :=
        pullSecrets_sub (List.mem_of_mem_filter hd)
      have : d = s := List.inj_on_of_nodup_map hnd hdst hmem hdid
      exact hrec (this ▸ hd)
  · intro r
    constructor
    · constructor
      · intro hcontains
        have : r.secret ∈ toDeleteIds (pullSecrets u w ev st) batch := by
          simpa [List.elem_iff] using hcontains
        exact List.mem_map.mp this
      · intro ⟨d, hd, hdid⟩
        have : r.secret ∈ toDeleteIds (pullSecrets u w ev st) batch :=
          hdid ▸ List.mem_map_of_mem _ hd
        simpa [List.elem_iff] using this
    · by_cases hc : (toDeleteIds (pullSecrets u w ev st) batch).contains r.secret = true
      · rw [if_pos hc, hc]
        simp
      · rw [Bool.not_eq_true] at hc
        rw [if_neg (by
          intro hm
          have hcontra : (toDeleteIds (pullSecrets u w ev st) batch).contains
              r.secret = true := by
            simpa [List.elem_iff] using hm
          rw [hcontra] at hc
          cases hc), hc]
        simp

/-- Witness for C5 at a concrete one-secret store and empty batch (the
stored secret is classified for deletion and its version row gets
flagged). -/
theorem claim_C5_delete_step_witness :
    ((({ secrets := [mkNewSecret "u" "w" "e" 0 (mkEntry "k" "v" SecretType.shared)],
         secretVersions := [mkAddRow (mkNewSecret "u" "w" "e" 0
           (mkEntry "k" "v" SecretType.shared))],
         secretSnapshots := [], nextId := 1 } : Store).secrets.map
          (fun s => s.id)).Nodup) ∧
    ((applyDelete (toDeleteIds (pullSecrets "u" "w" "e"
        { secrets := [mkNewSecret "u" "w" "e" 0 (mkEntry "k" "v" SecretType.shared)],
          secretVersions := [mkAddRow (mkNewSecret "u" "w" "e" 0
            (mkEntry "k" "v" SecretType.shared))],
          secretSnapshots := [], nextId := 1 }) [])
        { secrets := [mkNewSecret "u" "w" "e" 0 (mkEntry "k" "v" SecretType.shared)],
          secretVersions := [mkAddRow (mkNewSecret "u" "w" "e" 0
            (mkEntry "k" "v" SecretType.shared))],
          secretSnapshots := [], nextId := 1 }).secretVersions =
      ({ secrets := [mkNewSecret "u" "w" "e" 0 (mkEntry "k" "v" SecretType.shared)],
         secretVersions := [mkAddRow (mkNewSecret "u" "w" "e" 0
           (mkEntry "k" "v" SecretType.shared))],
         secretSnapshots := [], nextId := 1 } : Store).secretVersions.map fun r =>
        if (toDeleteIds (pullSecrets "u" "w" "e"
            { secrets := [mkNewSecret "u" "w" "e" 0 (mkEntry "k" "v" SecretType.shared)],
              secretVersions := [mkAddRow (mkNewSecret "u" "w" "e" 0
                (mkEntry "k" "v" SecretType.shared))],
              secretSnapshots := [], nextId := 1 }) []).contains r.secret then
          { r with isDeleted := true }
        else r) :=
  ⟨by decide,
    (claim_C5_delete_step "u" "w" "e" []
      { secrets := [mkNewSecret "u" "w" "e" 0 (mkEntry "k" "v" SecretType.shared)],
        secretVersions := [mkAddRow (mkNewSecret "u" "w" "e" 0
          (mkEntry "k" "v" SecretType.shared))],
        secretSnapshots := [], nextId := 1 }
      (by decide)).2.1⟩

/-! ## Claim C3: version-ledger contiguity -/

theorem ledgerInv_emptyStore : LedgerInv emptyStore :=
  ⟨⟨List.nodup_nil, fun s hs => absurd hs (List.not_mem_nil s),
    fun r hr => absurd hr (List.not_mem_nil r)⟩,
   fun s hs => absurd hs (List.not_mem_nil s)⟩

theorem pushList_ledgerInv (evs : List PushEvent) (st : Store)
    (hinv : LedgerInv st)
    (hB : ∀ e ∈ evs, ((e.batch.map (fun x => x.hashKey)).Nodup)) :
    LedgerInv (pushList evs st) := by
  induction evs generalizing st with
  | nil => exact hinv
  | cons ev rest ih =>
    exact ih _
      (pushSecrets_ledgerInv _ _ _ _ _ ⟨hinv.1, hinv.2⟩
        (hB ev (List.mem_cons_self _ _)))
      (fun e he => hB e (List.mem_cons_of_mem _ he))

/-- Counterexample to claim C3 as stated: pushing `[k ↦ v1]` and then a
batch containing two entries with the same key-hash `k` leaves the
single stored secret at version 3 while its `SecretVersion` rows carry
versions `[1, 2, 2]` — a repeat, a gap (no row at 3), and a last row
whose version differs from the secret's current version. -/
theorem claim_C3_counterexample :
    ((pushList
      [{ userId := "u", workspaceId := "w", environment := "e",
         batch := [mkEntry "k" "v1" SecretType.shared] },
       { userId := "u", workspaceId := "w", environment := "e",
         batch := [mkEntry "k" "v2" SecretType.shared,
                   mkEntry "k" "v3" SecretType.shared] }] emptyStore).secrets.map
        fun s => (s.id, s.version)) = [(0, 3)] ∧
    ((rowsFor 0 (pushList
      [{ userId := "u", workspaceId := "w", environment := "e",
         batch := [mkEntry "k" "v1" SecretType.shared] },
       { userId := "u", workspaceId := "w", environment := "e",
         batch := [mkEntry "k" "v2" SecretType.shared,
                   mkEntry "k" "v3" SecretType.shared] }]
        emptyStore).secretVersions).map fun r => r.version) = [1, 2, 2] ∧
    ([1, 2, 2] ≠ List.range' 1 3 ∧
      ([1, 2, 2] : List Nat).getLast? ≠ some 3) := by
  exact ⟨by decide, by decide, by decide⟩

/-- Claim C3 amended: after any sequence of single-writer pushes each of
whose batches has pairwise-distinct key-hashes, starting from a
well-formed store (for instance the empty one), every stored secret's
`SecretVersion` rows carry exactly the contiguous version sequence
`1, 2, …, version` in insertion order, and the last row's version equals
the secret's current `version` field; new secrets enter at version 1
with one row, every update appends exactly one row at the incremented
version. -/
theorem claim_C3_version_contiguity (evs : List PushEvent) (st : Store)
    (hinv : LedgerInv st)
    (hB : ∀ e ∈ evs, ((e.batch.map (fun x => x.hashKey)).Nodup)) :
    ∀ s ∈ (pushList evs st).secrets,
      1 ≤ s.version ∧
      ((rowsFor s.id (pushList evs st).secretVersions).map
        fun r => r.version) = List.range' 1 s.version ∧
      ((rowsFor s.id (pushList evs st).secretVersions).map
        fun r => r.version).getLast? = some s.version := by
  intro s hs
  obtain ⟨-, hver⟩ := pushList_ledgerInv evs st hinv hB
  obtain ⟨h1, h2⟩ := hver s hs
  refine ⟨h1, h2, ?_⟩
  rw [h2, List.getLast?_range', if_neg (by omega)]
  congr 1
  omega

/-- Witness for C3: one push of a single-entry batch on the empty store;
the created secret has version 1, rows `[1]`, last row version 1. -/
theorem claim_C3_version_contiguity_witness :
    (LedgerInv emptyStore ∧
      ∀ e ∈ ([⟨"u", "w", "e", [mkEntry "k" "v" SecretType.shared]⟩] :
          List PushEvent),
        ((e.batch.map (fun x => x.hashKey)).Nodup)) ∧
    (∀ s ∈ (pushList
        ([⟨"u", "w", "e", [mkEntry "k" "v" SecretType.shared]⟩] :
          List PushEvent) emptyStore).secrets,
      1 ≤ s.version ∧
      ((rowsFor s.id (pushList
        ([⟨"u", "w", "e", [mkEntry "k" "v" SecretType.shared]⟩] :
          List PushEvent) emptyStore).secretVersions).map
            fun r => r.version) = List.range' 1 s.version ∧
      ((rowsFor s.id (pushList
        ([⟨"u", "w", "e", [mkEntry "k" "v" SecretType.shared]⟩] :
          List PushEvent) emptyStore).secretVersions).map
            fun r => r.version).getLast? = some s.version) :=
  ⟨⟨ledgerInv_emptyStore, by decide⟩,
    claim_C3_version_contiguity _ emptyStore ledgerInv_emptyStore (by decide)⟩

/-! ## Claim C10: the update writes only value material -/

/-- Claim C10: for every entry classified `toUpdate` during a push, the
post-push store contains the targeted secret with only the four
value-material fields rewritten from the entry, the version incremented
by 1, and the user stamped exactly for personal-type entries; the key
material, workspace, environment and type fields are unchanged — the
type in particular is not rewritten even when the type difference
triggered the update. -/
theorem claim_C10_update_frame (u w ev : String) (batch : List PushSecret)
    (st : Store) (hnd : (st.secrets.map (fun s => s.id)).Nodup)
    (hB : (batch.map (fun e => e.hashKey)).Nodup) :
    ∀ e ∈ toUpdate (pullSecrets u w ev st) batch,
    ∀ old, oldObj (pullSecrets u w ev st) e.hashKey = some old →
    ∃ s' ∈ (pushSecrets u w ev batch st).secrets,
      s'.id = old.id ∧
      s'.secretKeyCiphertext = old.secretKeyCiphertext ∧
      s'.secretKeyIV = old.secretKeyIV ∧
      s'.secretKeyTag = old.secretKeyTag ∧
      s'.secretKeyHash = old.secretKeyHash ∧
      s'.workspace = old.workspace ∧
      s'.environment = old.environment ∧
      s'.type = old.type ∧
      s'.version = old.version + 1 ∧
      s'.secretValueCiphertext = e.ciphertextValue ∧
      s'.secretValueIV = e.ivValue ∧
      s'.secretValueTag = e.tagValue ∧
      s'.secretValueHash = e.hashValue ∧
      (e.type = SecretType.personal → s'.user = some u) ∧
      (e.type ≠ SecretType.personal → s'.user = old.user) := by
  intro e he old hfind
  have hU_nd : ((toUpdate (pullSecrets u w ev st) batch).map
      (fun x => x.hashKey)).Nodup :=
    ((List.filter_sublist batch).map _).nodup hB
  obtain ⟨hom, hok⟩ := objLookup_some hfind
  have holdst : old ∈ st.secrets := pullSecrets_sub hom
  have hws : old.workspace = w := workspace_of_mem_pullSecrets hom
  have hkeep : old ∈ (applyDelete (toDeleteIds (pullSecrets u w ev st) batch)
      st).secrets :=
    mem_applyDelete_of hnd holdst
      (List.any_eq_true.mpr ⟨e, List.mem_of_mem_filter he, by simp [hok]⟩)
  have htar : targetsB w (pullSecrets u w ev st) e old = true := by
    unfold targetsB
    rw [hfind]
    simp [hws]
  rcases applyMatching_cases old (pullSecrets_id_nodup hnd) hU_nd with
    ⟨-, hnone⟩ | ⟨u₁, e', u₂, hUeq, htar', h1, h2, heqF⟩
  · rw [hnone e he] at htar
    cases htar
  · have hee : e = e' := target_unique (pullSecrets_id_nodup hnd) hU_nd he
      (by rw [hUeq]; exact List.mem_append_right _ (List.mem_cons_self _ _))
      htar htar'
    subst hee
    refine ⟨applySecretUpdate u e old, ?_, rfl, rfl, rfl, rfl, rfl, rfl, rfl,
      rfl, rfl, rfl, rfl, rfl, rfl, ?_, ?_⟩
    · rw [pushSecrets_secrets_eq u w ev batch st hnd]
      exact List.mem_append_left _ (List.mem_map.mpr ⟨old, hkeep, heqF⟩)
    · intro hty
      simp [applySecretUpdate, hty, beq_personal_personal]
    · intro hty
      cases hty' : e.type with
      | personal => exact absurd hty' hty
      | shared => simp [applySecretUpdate, hty', beq_shared_personal]

/-- Witness for C10 at a concrete store holding one shared secret and a
batch updating its value. -/
theorem claim_C10_update_frame_witness :
    ((({ secrets := [mkNewSecret "u" "w" "e" 0 (mkEntry "k" "v" SecretType.shared)],
         secretVersions := [], secretSnapshots := [], nextId := 1 } :
          Store).secrets.map (fun s => s.id)).Nodup ∧
      (([mkEntry "k" "v2" SecretType.shared].map (fun e => e.hashKey)).Nodup)) ∧
    (∀ e ∈ toUpdate (pullSecrets "u" "w" "e"
        { secrets := [mkNewSecret "u" "w" "e" 0 (mkEntry "k" "v" SecretType.shared)],
          secretVersions := [], secretSnapshots := [], nextId := 1 })
        [mkEntry "k" "v2" SecretType.shared],
     ∀ old, oldObj (pullSecrets "u" "w" "e"
        { secrets := [mkNewSecret "u" "w" "e" 0 (mkEntry "k" "v" SecretType.shared)],
          secretVersions := [], secretSnapshots := [], nextId := 1 })
        e.hashKey = some old →
     ∃ s' ∈ (pushSecrets "u" "w" "e" [mkEntry "k" "v2" SecretType.shared]
        { secrets := [mkNewSecret "u" "w" "e" 0 (mkEntry "k" "v" SecretType.shared)],
          secretVersions := [], secretSnapshots := [], nextId := 1 }).secrets,
      s'.id = old.id ∧
      s'.secretKeyCiphertext = old.secretKeyCiphertext ∧
      s'.secretKeyIV = old.secretKeyIV ∧
      s'.secretKeyTag = old.secretKeyTag ∧
      s'.secretKeyHash = old.secretKeyHash ∧
      s'.workspace = old.workspace ∧
      s'.environment = old.environment ∧
      s'.type = old.type ∧
      s'.version = old.version + 1 ∧
      s'.secretValueCiphertext = e.ciphertextValue ∧
      s'.secretValueIV = e.ivValue ∧
      s'.secretValueTag = e.tagValue ∧
      s'.secretValueHash = e.hashValue ∧
      (e.type = SecretType.personal → s'.user = some "u") ∧
      (e.type ≠ SecretType.personal → s'.user = old.user)) :=
  ⟨⟨by decide, by decide⟩,
    claim_C10_update_frame "u" "w" "e" [mkEntry "k" "v2" SecretType.shared]
      { secrets := [mkNewSecret "u" "w" "e" 0 (mkEntry "k" "v" SecretType.shared)],
        secretVersions := [], secretSnapshots := [], nextId := 1 }
      (by decide) (by decide)⟩

/-! ## Claim C2: idempotence of the second push -/

/-- Counterexample to claim C2 as stated: one shared secret `k` is
stored; the same single-entry batch — `k` with the same value-hash but
type `personal` — is pushed twice.  The update step never rewrites the
`type` field, so the type mismatch persists, the second push classifies
the entry `toUpdate` again (classification not empty) and writes a third
`SecretVersion` row. -/
theorem claim_C2_counterexample :
    (toUpdate (pullSecrets "u" "w" "e"
        (pushSecrets "u" "w" "e" [mkEntry "k" "v" SecretType.personal]
          (pushSecrets "u" "w" "e" [mkEntry "k" "v" SecretType.shared]
            emptyStore)))
      [mkEntry "k" "v" SecretType.personal]).length = 1 ∧
    (pushSecrets "u" "w" "e" [mkEntry "k" "v" SecretType.personal]
      (pushSecrets "u" "w" "e" [mkEntry "k" "v" SecretType.personal]
        (pushSecrets "u" "w" "e" [mkEntry "k" "v" SecretType.shared]
          emptyStore))).secretVersions.length = 3 ∧
    (pushSecrets "u" "w" "e" [mkEntry "k" "v" SecretType.personal]
      (pushSecrets "u" "w" "e" [mkEntry "k" "v" SecretType.shared]
        emptyStore)).secretVersions.length = 2 := by
  exact ⟨by decide, by decide, by decide⟩

/-- Claim C2 amended: pushing the same batch twice in succession to an
otherwise unchanged store yields no Secret and no SecretVersion writes
on the second push (all three classifications empty), and each push
appends exactly one snapshot, the second snapshot's secret list equal to
the first's — provided the batch's key-hashes are pairwise distinct, the
stored scope's key-hashes are unique, and no batch entry's type differs
from the stored secret carrying the same key-hash (a type-triggered
update is not idempotent because the update never rewrites `type`). -/
theorem claim_C2_idempotent_second_push (u w ev : String)
    (batch : List PushSecret) (st : Store)
    (hnd : (st.secrets.map (fun s => s.id)).Nodup)
    (hscopeH : ((pullSecrets u w ev st).map (fun s => s.secretKeyHash)).Nodup)
    (hB : (batch.map (fun e => e.hashKey)).Nodup)
    (htype : ∀ e ∈ batch, ∀ s ∈ pullSecrets u w ev st,
      s.secretKeyHash = e.hashKey → s.type = e.type) :
    toDeleteRecords (pullSecrets u w ev (pushSecrets u w ev batch st)) batch
      = [] ∧
    toUpdate (pullSecrets u w ev (pushSecrets u w ev batch st)) batch = [] ∧
    toAdd (pullSecrets u w ev (pushSecrets u w ev batch st)) batch = [] ∧
    (pushSecrets u w ev batch (pushSecrets u w ev batch st)).secrets =
      (pushSecrets u w ev batch st).secrets ∧
    (pushSecrets u w ev batch (pushSecrets u w ev batch st)).secretVersions =
      (pushSecrets u w ev batch st).secretVersions ∧
    (∃ snap1 snap2 : SecretSnapshot,
      (pushSecrets u w ev batch st).secretSnapshots =
        st.secretSnapshots ++ [snap1] ∧
      (pushSecrets u w ev batch (pushSecrets u w ev batch st)).secretSnapshots =
        (pushSecrets u w ev batch st).secretSnapshots ++ [snap2] ∧
      snap2.secrets = snap1.secrets) := by
  have hfwd := push_scope_forward u w ev batch st hnd hscopeH hB htype
  have hbwd := push_scope_backward u w ev batch st hnd hB
  have hD2 : toDeleteRecords
      (pullSecrets u w ev (pushSecrets u w ev batch st)) batch = [] := by
    unfold toDeleteRecords
    rw [List.filter_eq_nil_iff]
    intro s1 hs1
    obtain ⟨e, he, hkey, -, -⟩ := hfwd s1 hs1
    have hany : batch.any (fun x => x.hashKey == s1.secretKeyHash) = true :=
      List.any_eq_true.mpr ⟨e, he, by simp [hkey]⟩
    simp [hany]
  have hU2 : toUpdate
      (pullSecrets u w ev (pushSecrets u w ev batch st)) batch = [] := by
    unfold toUpdate
    rw [List.filter_eq_nil_iff]
    intro e he
    cases hfind : oldObj (pullSecrets u w ev (pushSecrets u w ev batch st))
        e.hashKey with
    | none => simp [hfind]
    | some s1 =>
      obtain ⟨hs1mem, hs1key⟩ := objLookup_some hfind
      obtain ⟨e', he', hkey', hval', hty'⟩ := hfwd s1 hs1mem
      have hee : e' = e := List.inj_on_of_nodup_map hB he' he
        (by rw [hkey', hs1key])
      subst hee
      simp [hfind, hval', hty']
  have hA2 : toAdd
      (pullSecrets u w ev (pushSecrets u w ev batch st)) batch = [] := by
    unfold toAdd
    rw [List.filter_eq_nil_iff]
    intro e he
    obtain ⟨s1, hs1mem, hs1key⟩ := hbwd e he
    have hsome : (oldObj (pullSecrets u w ev (pushSecrets u w ev batch st))
        e.hashKey).isSome = true :=
      objLookup_isSome_iff.mpr ⟨s1, hs1mem, hs1key⟩
    cases hx : oldObj (pullSecrets u w ev (pushSecrets u w ev batch st))
        e.hashKey with
    | some s1' => simp [hx]
    | none =>
      rw [hx] at hsome
      simp at hsome
  have hDid2 : toDeleteIds
      (pullSecrets u w ev (pushSecrets u w ev batch st)) batch = [] := by
    unfold toDeleteIds
    rw [hD2]
    rfl
  have hbody2sec : (pushSecretsBody u w ev batch
      (pushSecrets u w ev batch st)).secrets =
      (pushSecrets u w ev batch st).secrets := by
    rw [pushSecretsBody_secrets, hU2, hA2, hDid2, mkNewSecrets_nil,
      List.append_nil, applyUpdates_nil, applyDelete_nil]
  have hbody2ver : (pushSecretsBody u w ev batch
      (pushSecrets u w ev batch st)).secretVersions =
      (pushSecrets u w ev batch st).secretVersions := by
    rw [pushSecretsBody_secretVersions, hU2, hA2, hDid2, mkNewSecrets_nil,
      List.map_nil, List.append_nil, updateRows_nil, List.append_nil,
      applyDelete_nil]
  have hsec : (pushSecrets u w ev batch
      (pushSecrets u w ev batch st)).secrets =
      (pushSecrets u w ev batch st).secrets := by
    show (takeSecretSnapshotHelper w (pushSecretsBody u w ev batch
      (pushSecrets u w ev batch st))).secrets = _
    rw [takeSecretSnapshotHelper_secrets, hbody2sec]
  have hver : (pushSecrets u w ev batch
      (pushSecrets u w ev batch st)).secretVersions =
      (pushSecrets u w ev batch st).secretVersions := by
    show (takeSecretSnapshotHelper w (pushSecretsBody u w ev batch
      (pushSecrets u w ev batch st))).secretVersions = _
    rw [takeSecretSnapshotHelper_secretVersions, hbody2ver]
  refine ⟨hD2, hU2, hA2, hsec, hver,
    ⟨_, _, pushSecrets_secretSnapshots_eq u w ev batch st,
      pushSecrets_secretSnapshots_eq u w ev batch _, ?_⟩⟩
  show (pushSecretsBody u w ev batch
      (pushSecrets u w ev batch st)).secrets.filter (fun s => s.workspace == w) =
    (pushSecretsBody u w ev batch st).secrets.filter (fun s => s.workspace == w)
  rw [hbody2sec]
  rw [show (pushSecrets u w ev batch st).secrets =
      (pushSecretsBody u w ev batch st).secrets from
    takeSecretSnapshotHelper_secrets w (pushSecretsBody u w ev batch st)]

/-- Witness for C2: the single-entry shared batch pushed twice onto the
empty store. -/
theorem claim_C2_idempotent_second_push_witness :
    ((((emptyStore : Store).secrets).map (fun s => s.id)).Nodup ∧
      ((pullSecrets "u" "w" "e" emptyStore).map
        (fun s => s.secretKeyHash)).Nodup ∧
      (([mkEntry "k" "v" SecretType.shared].map (fun e => e.hashKey)).Nodup) ∧
      (∀ e ∈ [mkEntry "k" "v" SecretType.shared],
        ∀ s ∈ pullSecrets "u" "w" "e" emptyStore,
        s.secretKeyHash = e.hashKey → s.type = e.type)) ∧
    (toDeleteRecords (pullSecrets "u" "w" "e"
        (pushSecrets "u" "w" "e" [mkEntry "k" "v" SecretType.shared] emptyStore))
        [mkEntry "k" "v" SecretType.shared] = [] ∧
      toUpdate (pullSecrets "u" "w" "e"
        (pushSecrets "u" "w" "e" [mkEntry "k" "v" SecretType.shared] emptyStore))
        [mkEntry "k" "v" SecretType.shared] = [] ∧
      toAdd (pullSecrets "u" "w" "e"
        (pushSecrets "u" "w" "e" [mkEntry "k" "v" SecretType.shared] emptyStore))
        [mkEntry "k" "v" SecretType.shared] = [] ∧
      (pushSecrets "u" "w" "e" [mkEntry "k" "v" SecretType.shared]
        (pushSecrets "u" "w" "e" [mkEntry "k" "v" SecretType.shared]
          emptyStore)).secrets =
        (pushSecrets "u" "w" "e" [mkEntry "k" "v" SecretType.shared]
          emptyStore).secrets ∧
      (pushSecrets "u" "w" "e" [mkEntry "k" "v" SecretType.shared]
        (pushSecrets "u" "w" "e" [mkEntry "k" "v" SecretType.shared]
          emptyStore)).secretVersions =
        (pushSecrets "u" "w" "e" [mkEntry "k" "v" SecretType.shared]
          emptyStore).secretVersions ∧
      (∃ snap1 snap2 : SecretSnapshot,
        (pushSecrets "u" "w" "e" [mkEntry "k" "v" SecretType.shared]
          emptyStore).secretSnapshots = emptyStore.secretSnapshots ++ [snap1] ∧
        (pushSecrets "u" "w" "e" [mkEntry "k" "v" SecretType.shared]
          (pushSecrets "u" "w" "e" [mkEntry "k" "v" SecretType.shared]
            emptyStore)).secretSnapshots =
          (pushSecrets "u" "w" "e" [mkEntry "k" "v" SecretType.shared]
            emptyStore).secretSnapshots ++ [snap2] ∧
        snap2.secrets = snap1.secrets)) :=
  ⟨⟨by decide, by decide, by decide, by decide⟩,
    claim_C2_idempotent_second_push "u" "w" "e"
      [mkEntry "k" "v" SecretType.shared] emptyStore
      (by decide) (by decide) (by decide) (by decide)⟩

/-! ## Claim C6: key-hash uniqueness of the pushed scope -/

/-- Counterexample to claim C6 as stated: a batch containing two entries
with the same key-hash `k` pushed onto the empty store inserts two
stored secrets with the same key-hash — the push does not preserve
scope key-hash uniqueness for duplicate batches. -/
theorem claim_C6_counterexample :
    ((pullSecrets "u" "w" "e" (pushSecrets "u" "w" "e"
        [mkEntry "k" "a" SecretType.shared, mkEntry "k" "b" SecretType.shared]
        emptyStore)).map fun s => s.secretKeyHash) = ["k", "k"] ∧
    ¬ (["k", "k"] : List String).Nodup :=
  ⟨by decide, by decide⟩

/-- Claim C6 amended: a push whose incoming batch has pairwise-distinct
key-hashes preserves key-hash uniqueness of the pushed
(workspace, environment, owner) scope: updates never change a key-hash,
deletions only remove records, and insertions carry key-hashes absent
from the stored scope and distinct among themselves. -/
theorem claim_C6_scope_hash_uniqueness (u w ev : String)
    (batch : List PushSecret) (st : Store)
    (hnd : (st.secrets.map (fun s => s.id)).Nodup)
    (hscopeH : ((pullSecrets u w ev st).map (fun s => s.secretKeyHash)).Nodup)
    (hB : (batch.map (fun e => e.hashKey)).Nodup) :
    ((pullSecrets u w ev (pushSecrets u w ev batch st)).map
      (fun s => s.secretKeyHash)).Nodup := by
  have hsp : (((List.filter (personalPredB u w ev) st.secrets).map
        (fun s => s.secretKeyHash)) ++
      ((List.filter (sharedPredB w ev) st.secrets).map
        (fun s => s.secretKeyHash))).Nodup := by
    rw [← List.map_append]
    exact hscopeH
  obtain ⟨hndp1, hndp2, hdisp⟩ := List.nodup_append.mp hsp
  have hNhash : ((mkNewSecrets u w ev st.nextId
      (toAdd (pullSecrets u w ev st) batch)).map (fun s => s.secretKeyHash)) =
      ((toAdd (pullSecrets u w ev st) batch).map (fun e => e.hashKey)) :=
    mkNewSecrets_map_keyHash _ _ _ _ _
  have hndN : ((mkNewSecrets u w ev st.nextId
      (toAdd (pullSecrets u w ev st) batch)).map
        (fun s => s.secretKeyHash)).Nodup := by
    rw [hNhash]
    exact ((List.filter_sublist batch).map _).nodup hB
  have hNfresh : ∀ t ∈ mkNewSecrets u w ev st.nextId
      (toAdd (pullSecrets u w ev st) batch),
      ∀ s ∈ pullSecrets u w ev st, s.secretKeyHash ≠ t.secretKeyHash := by
    intro t ht s hs
    obtain ⟨a, ha, k, -, rfl⟩ := mem_mkNewSecrets ht
    have hnone : oldObj (pullSecrets u w ev st) a.hashKey = none := by
      have := (List.mem_filter.mp ha).2
      simpa [Option.isNone_iff_eq_none] using this
    exact objLookup_eq_none.mp hnone s hs
  have hH1 := filter_map_applyMatching_hashes u w ev batch st
    (personalPredB u w ev)
    (fun s hs => (pull_preds_applyMatching hnd hB hs).1)
  have hH2 := filter_map_applyMatching_hashes u w ev batch st
    (sharedPredB w ev)
    (fun s hs => (pull_preds_applyMatching hnd hB hs).2)
  have hmemA : ∀ (p : Secret → Bool) (x : String),
      x ∈ (List.filter
          (fun s => !((toDeleteIds (pullSecrets u w ev st) batch).contains s.id))
          (List.filter p st.secrets)).map (fun s => s.secretKeyHash) →
      x ∈ (List.filter p st.secrets).map (fun s => s.secretKeyHash) := by
    intro p x hx
    exact ((List.filter_sublist _).map _).subset hx
  have hmemB : ∀ (p : Secret → Bool) (x : String),
      x ∈ (List.filter p (mkNewSecrets u w ev st.nextId
        (toAdd (pullSecrets u w ev st) batch))).map (fun s => s.secretKeyHash) →
      ∃ t ∈ mkNewSecrets u w ev st.nextId
        (toAdd (pullSecrets u w ev st) batch), t.secretKeyHash = x := by
    intro p x hx
    obtain ⟨t, ht, rfl⟩ := List.mem_map.mp hx
    exact ⟨t, List.mem_of_mem_filter ht, rfl⟩
  have hKN : ∀ x : String,
      (∃ s ∈ pullSecrets u w ev st, s.secretKeyHash = x) →
      (∃ t ∈ mkNewSecrets u w ev st.nextId
        (toAdd (pullSecrets u w ev st) batch), t.secretKeyHash = x) →
      False := by
    rintro x ⟨s, hs, rfl⟩ ⟨t, ht, hteq⟩
    exact hNfresh t ht s hs hteq.symm
  have hNN : ∀ x : String,
      x ∈ (List.filter (personalPredB u w ev) (mkNewSecrets u w ev st.nextId
        (toAdd (pullSecrets u w ev st) batch))).map (fun s => s.secretKeyHash) →
      x ∈ (List.filter (sharedPredB w ev) (mkNewSecrets u w ev st.nextId
        (toAdd (pullSecrets u w ev st) batch))).map (fun s => s.secretKeyHash) →
      False := by
    intro x hx1 hx2
    obtain ⟨a, haf, rfl⟩ := List.mem_map.mp hx1
    obtain ⟨b, hbf, hbeq⟩ := List.mem_map.mp hx2
    have hab : b = a := List.inj_on_of_nodup_map hndN
      (List.mem_of_mem_filter hbf) (List.mem_of_mem_filter haf) hbeq
    subst hab
    have h1 := (List.mem_filter.mp haf).2
    have h2 := (List.mem_filter.mp hbf).2
    simp only [personalPredB, Bool.and_eq_true, beq_iff_eq] at h1
    simp only [sharedPredB, Bool.and_eq_true, beq_iff_eq] at h2
    exact SecretType.noConfusion (h1.1.2.symm.trans h2.2)
  have hpull : pullSecrets u w ev (pushSecrets u w ev batch st) =
      ((pushSecrets u w ev batch st).secrets).filter (personalPredB u w ev) ++
      ((pushSecrets u w ev batch st).secrets).filter (sharedPredB w ev) := rfl
  rw [hpull, pushSecrets_secrets_eq u w ev batch st hnd, List.filter_append,
    List.filter_append, List.map_append, List.map_append, List.map_append,
    hH1, hH2]
  rw [List.nodup_append]
  refine ⟨?_, ?_, ?_⟩
  · rw [List.nodup_append]
    refine ⟨((List.filter_sublist _).map _).nodup hndp1,
      ((List.filter_sublist _).map _).nodup hndN, ?_⟩
    intro x hx1 hx2
    refine hKN x ?_ (hmemB _ x hx2)
    obtain ⟨s, hsf, rfl⟩ := List.mem_map.mp (hmemA _ x hx1)
    exact ⟨s, List.mem_append_left _ hsf, rfl⟩
  · rw [List.nodup_append]
    refine ⟨((List.filter_sublist _).map _).nodup hndp2,
      ((List.filter_sublist _).map _).nodup hndN, ?_⟩
    intro x hx1 hx2
    refine hKN x ?_ (hmemB _ x hx2)
    obtain ⟨s, hsf, rfl⟩ := List.mem_map.mp (hmemA _ x hx1)
    exact ⟨s, List.mem_append_right _ hsf, rfl⟩
  · intro x hx1 hx2
    rcases List.mem_append.mp hx1 with h1 | h1 <;>
      rcases List.mem_append.mp hx2 with h2 | h2
    · exact hdisp (hmemA _ x h1) (hmemA _ x h2)
    · refine hKN x ?_ (hmemB _ x h2)
      obtain ⟨s, hsf, rfl⟩ := List.mem_map.mp (hmemA _ x h1)
      exact ⟨s, List.mem_append_left _ hsf, rfl⟩
    · refine hKN x ?_ (hmemB _ x h1)
      obtain ⟨s, hsf, rfl⟩ := List.mem_map.mp (hmemA _ x h2)
      exact ⟨s, List.mem_append_right _ hsf, rfl⟩
    · exact hNN x h1 h2

/-- Witness for C6: one single-entry batch pushed onto the empty
store. -/
theorem claim_C6_scope_hash_uniqueness_witness :
    ((((emptyStore : Store).secrets).map (fun s => s.id)).Nodup ∧
      ((pullSecrets "u" "w" "e" emptyStore).map
        (fun s => s.secretKeyHash)).Nodup ∧
      (([mkEntry "k" "v" SecretType.shared].map (fun e => e.hashKey)).Nodup)) ∧
    ((pullSecrets "u" "w" "e" (pushSecrets "u" "w" "e"
        [mkEntry "k" "v" SecretType.shared] emptyStore)).map
      (fun s => s.secretKeyHash)).Nodup :=
  ⟨⟨by decide, by decide, by decide⟩,
    claim_C6_scope_hash_uniqueness "u" "w" "e"
      [mkEntry "k" "v" SecretType.shared] emptyStore
      (by decide) (by decide) (by decide)⟩

end Infisical
